import Mathlib

/-!
# gocircularmap: a bounded map with FIFO eviction

Shallow embedding of `map.go`.  The Go struct `Map` becomes the record `Map`,
every method becomes a pure function that returns the new record (the receiver
is passed explicitly), and the buffered channel `entriesChan` becomes a bounded
queue with non-blocking send and receive, which is what the two
`select { ... default: ... }` statements use.  The mutex is not part of the
sequential model.  Keys are taken from a type with decidable equality, values
from an arbitrary type.  The two `uint` fields are natural numbers, and the
statements `totalEntries++` and `totalEntries--` wrap modulo `2^64`.  The
allocation `make(chan any, maxEntries)` is taken to succeed.
-/

namespace GoCircularMap

/-! ## Machine integers -/

/-- The number of values of Go's `uint` (64-bit platforms). -/
def uintSize : Nat := 2 ^ 64

/-- The statement `n++` on a `uint`. -/
def uintInc (n : Nat) : Nat := (n + 1) % uintSize

/-- The statement `n--` on a `uint`. -/
def uintDec (n : Nat) : Nat := (n + uintSize - 1) % uintSize

/-! ## The table `map[any]any` -/

/-- The lookup `mp[key]`: the stored value, or `none` when the key is absent. -/
def tableGet {K V : Type} [DecidableEq K] : List (K × V) → K → Option V
  | [], _ => none
  | e :: rest, key => if e.1 = key then some e.2 else tableGet rest key

/-- The builtin `delete(mp, key)`. -/
def tableDelete {K V : Type} [DecidableEq K] (mp : List (K × V)) (key : K) : List (K × V) :=
  mp.filter (fun e => decide (e.1 ≠ key))

/-- The assignment `mp[key] = value`: overwrite the entry of a present key,
add an entry for an absent one. -/
def tableSet {K V : Type} [DecidableEq K] (mp : List (K × V)) (key : K) (value : V) :
    List (K × V) :=
  match tableGet mp key with
  | some _ => mp.map (fun e => if e.1 = key then (key, value) else e)
  | none => mp ++ [(key, value)]

/-- The builtin `len(mp)`: the number of keys present in the table. -/
def tableLen {K V : Type} (mp : List (K × V)) : Nat := mp.length

/-! ## The buffered channel `chan any` -/

/-- A buffered channel: its capacity and the queued elements, oldest first. -/
structure Chan (K : Type) where
  cap : Nat
  buf : List K
deriving DecidableEq

/-- The expression `make(chan any, cap)`. -/
def Chan.make {K : Type} (cap : Nat) : Chan K := { cap := cap, buf := [] }

/-- The non-blocking send `select { case c <- key: ... default: ... }`:
`none` is the `default` branch, taken when the buffer is full. -/
def Chan.trySend {K : Type} (c : Chan K) (key : K) : Option (Chan K) :=
  if c.buf.length < c.cap then some { c with buf := c.buf ++ [key] } else none

/-- The non-blocking receive `select { case key := <-c: ... default: ... }`:
`none` is the `default` branch, taken when the buffer is empty. -/
def Chan.tryRecv {K : Type} (c : Chan K) : Option (K × Chan K) :=
  match c.buf with
  | [] => none
  | key :: rest => some (key, { c with buf := rest })

/-! ## The map -/

/-- The two errors that `Store` can return. -/
inductive StoreError (K : Type) where
  /-- The error `errors.New("no available first entry key")`. -/
  | noFirstKey : StoreError K
  /-- The error `fmt.Errorf("error adding entry: %v", key)`. -/
  | addingEntry (key : K) : StoreError K
deriving DecidableEq

/-- The struct `Map` (without its mutex). -/
structure Map (K V : Type) where
  mp : List (K × V)
  entriesChan : Chan K
  totalEntries : Nat
  maxEntries : Nat
deriving DecidableEq

/-- The method `initialize` (the name is reserved in Lean, hence the suffix). -/
def initializeMap {K V : Type} (st : Map K V) (maxEntries : Nat) : Map K V :=
  { st with mp := [], maxEntries := maxEntries, entriesChan := Chan.make maxEntries }

/-- The zero value `Map{}`. -/
def zeroMap {K V : Type} : Map K V :=
  ⟨[], ⟨0, []⟩, 0, 0⟩

/-- The constructor `NewMap`: `initialize` on the zero value `&Map{}`. -/
def NewMap {K V : Type} (maxEntries : Nat) : Map K V :=
  initializeMap zeroMap maxEntries

/-- The method `deleteNoLock`: a no-op when the key is absent. -/
def deleteNoLock {K V : Type} [DecidableEq K] (st : Map K V) (key : K) : Map K V :=
  match tableGet st.mp key with
  | some _ => { st with mp := tableDelete st.mp key, totalEntries := uintDec st.totalEntries }
  | none => st

/-- The method `getFirstKey`: the dequeued key and the map with the shortened
queue, or the error. -/
def getFirstKey {K V : Type} (st : Map K V) : Except (StoreError K) (K × Map K V) :=
  match st.entriesChan.tryRecv with
  | some (key, c) => .ok (key, { st with entriesChan := c })
  | none => .error .noFirstKey

/-- The part of `Store` after the eviction block: add the entry, increment the
counter, enqueue the key, or roll back when the queue is full. -/
def storeEntry {K V : Type} [DecidableEq K] (st : Map K V) (key : K) (value : V) :
    Map K V × Option (StoreError K) :=
  let st1 := { st with mp := tableSet st.mp key value }
  let st2 := { st1 with totalEntries := uintInc st1.totalEntries }
  match st2.entriesChan.trySend key with
  | some c => ({ st2 with entriesChan := c }, none)
  | none => (deleteNoLock st2 key, some (.addingEntry key))

/-- The method `Store`: the map after the call and the returned error
(`none` is Go's `nil`). -/
def Store {K V : Type} [DecidableEq K] (st : Map K V) (key : K) (value : V) :
    Map K V × Option (StoreError K) :=
  if st.totalEntries ≥ st.maxEntries then
    match getFirstKey st with
    | .error err => (st, some err)
    | .ok (keyToRemove, st1) => storeEntry (deleteNoLock st1 keyToRemove) key value
  else
    storeEntry st key value

/-- The method `Load`: the value (`none` is Go's `nil`) and the `ok` flag. -/
def Load {K V : Type} [DecidableEq K] (st : Map K V) (key : K) : Option V × Bool :=
  match tableGet st.mp key with
  | some value => (some value, true)
  | none => (none, false)

/-- The method `Delete`. -/
def Delete {K V : Type} [DecidableEq K] (st : Map K V) (key : K) : Map K V :=
  deleteNoLock st key

/-! ## Sequences of calls -/

/-- A mutating call on the map. -/
inductive Op (K V : Type) where
  | store (key : K) (value : V) : Op K V
  | delete (key : K) : Op K V
deriving DecidableEq

/-- The map after one call. -/
def applyOp {K V : Type} [DecidableEq K] (st : Map K V) : Op K V → Map K V
  | .store key value => (Store st key value).1
  | .delete key => Delete st key

/-- The map after a sequence of calls, applied in order. -/
def runOps {K V : Type} [DecidableEq K] (st : Map K V) (ops : List (Op K V)) : Map K V :=
  ops.foldl applyOp st

/-- The calls `Store(k1, v1)`, ..., `Store(kn, vn)` in that order: the final
map and the error returned by each call. -/
def storeAll {K V : Type} [DecidableEq K] (st : Map K V) :
    List (K × V) → Map K V × List (Option (StoreError K))
  | [] => (st, [])
  | (key, value) :: rest =>
    let r := Store st key value
    let rs := storeAll r.1 rest
    (rs.1, r.2 :: rs.2)

/-- The keys present in the table. -/
def tableKeys {K V : Type} (mp : List (K × V)) : List K := mp.map Prod.fst

/-- Table and queue agree: the table has no key twice, every key of the table
is queued, the queue respects its capacity, and that capacity is `maxEntries`. -/
def Consistent {K V : Type} (st : Map K V) : Prop :=
  (tableKeys st.mp).Nodup ∧ (∀ key ∈ tableKeys st.mp, key ∈ st.entriesChan.buf) ∧
    st.entriesChan.buf.length ≤ st.entriesChan.cap ∧ st.entriesChan.cap = st.maxEntries

/-- The map in which the pairs `pre` were stored in order and nothing was
evicted or deleted: the table holds the pairs, the queue their keys, and the
counter their number. -/
def filled {K V : Type} (maxEntries : Nat) (pre : List (K × V)) : Map K V :=
  { mp := pre, entriesChan := { cap := maxEntries, buf := tableKeys pre },
    totalEntries := pre.length, maxEntries := maxEntries }

/-- What holds after `done` calls of `Store` and no other call on
`NewMap(maxEntries)`: the queue has capacity `maxEntries` and holds
`min totalEntries maxEntries` keys, and the counter is at most `done`. -/
def StoreOnly {K V : Type} (maxEntries done : Nat) (st : Map K V) : Prop :=
  st.maxEntries = maxEntries ∧ st.entriesChan.cap = maxEntries ∧
    st.entriesChan.buf.length = min st.totalEntries maxEntries ∧ st.totalEntries ≤ done

/-- The counter covers the table and has not passed the number `done` of calls
made so far. -/
def Counted {K V : Type} (done : Nat) (st : Map K V) : Prop :=
  tableLen st.mp ≤ st.totalEntries ∧ st.totalEntries ≤ done

/-- The queue is full while the counter is below `maxEntries` (and covers the
table): `Store` skips the eviction and cannot enqueue. -/
def Stuck {K V : Type} (st : Map K V) : Prop :=
  st.entriesChan.cap = st.maxEntries ∧ st.entriesChan.buf.length = st.maxEntries ∧
    st.totalEntries < st.maxEntries ∧ tableLen st.mp ≤ st.totalEntries ∧
    st.totalEntries < uintSize

/-- The list `ops` repeated `m` times. -/
def repeatOps {K V : Type} (m : Nat) (ops : List (Op K V)) : List (Op K V) :=
  match m with
  | 0 => []
  | m + 1 => ops ++ repeatOps m ops

/-- The map of capacity 2 that holds the keys `"c"` and `"b"`, queued in that
order, with the counter at `t`. -/
def inflatedState (t : Nat) : Map String Nat :=
  { mp := [("c", 0), ("b", 0)], entriesChan := { cap := 2, buf := ["c", "b"] },
    totalEntries := t, maxEntries := 2 }

/-- Three calls of `Store` that lead from `inflatedState t` back to the same
table and queue: the second `Store("b", 0)` dequeues a stale `"b"`. -/
def inflateCycle : List (Op String Nat) :=
  [.store "b" 0, .store "c" 0, .store "b" 0]

/-- A sequence of `Store` calls on a map of capacity 2 that drives the counter
around the full range of a `uint`. -/
def overflowOps : List (Op String Nat) :=
  [.store "c" 0, .store "b" 0] ++ repeatOps (uintSize - 2) inflateCycle

/-! ## Lemmas on the table -/

theorem tableGet_eq_none_iff {K V : Type} [DecidableEq K] (mp : List (K × V)) (key : K) :
    tableGet mp key = none ↔ key ∉ tableKeys mp := by
  induction mp with
  | nil => simp [tableGet, tableKeys]
  | cons e rest ih =>
    by_cases h : e.1 = key
    · simp [tableGet, tableKeys, h]
    · have h2 : ¬ key = e.1 := fun h3 => h h3.symm
      simp [tableGet, h, ih, tableKeys, h2]

theorem tableGet_ne_none_iff {K V : Type} [DecidableEq K] (mp : List (K × V)) (key : K) :
    tableGet mp key ≠ none ↔ key ∈ tableKeys mp := by
  rw [Ne, tableGet_eq_none_iff]; exact not_not

theorem tableGet_tableDelete_self {K V : Type} [DecidableEq K] (mp : List (K × V)) (key : K) :
    tableGet (tableDelete mp key) key = none := by
  rw [tableGet_eq_none_iff]
  simp [tableKeys, tableDelete]

theorem tableGet_tableDelete_ne {K V : Type} [DecidableEq K] (mp : List (K × V))
    (key other : K) (h : other ≠ key) :
    tableGet (tableDelete mp key) other = tableGet mp other := by
  induction mp with
  | nil => rfl
  | cons e rest ih =>
    by_cases h1 : e.1 = key
    · have h2 : ¬ e.1 = other := fun h3 => h (h3.symm.trans h1)
      have : tableDelete (e :: rest) key = tableDelete rest key := by
        simp [tableDelete, h1]
      rw [this, ih]; simp [tableGet, h2]
    · have : tableDelete (e :: rest) key = e :: tableDelete rest key := by
        simp [tableDelete, h1]
      rw [this]; simp only [tableGet, ih]

theorem tableDelete_of_absent {K V : Type} [DecidableEq K] (mp : List (K × V)) (key : K)
    (h : tableGet mp key = none) : tableDelete mp key = mp := by
  rw [tableGet_eq_none_iff] at h
  unfold tableDelete
  rw [List.filter_eq_self]
  intro e he
  have : e.1 ≠ key := fun h1 => h (by rw [← h1]; exact List.mem_map_of_mem Prod.fst he)
  simpa using this

theorem tableKeys_tableDelete {K V : Type} [DecidableEq K] (mp : List (K × V)) (key : K) :
    tableKeys (tableDelete mp key) = (tableKeys mp).filter (fun a => decide (a ≠ key)) := by
  unfold tableKeys tableDelete
  rw [List.filter_map]
  rfl

theorem tableKeys_tableSet_absent {K V : Type} [DecidableEq K] (mp : List (K × V)) (key : K)
    (value : V) (h : tableGet mp key = none) :
    tableKeys (tableSet mp key value) = tableKeys mp ++ [key] := by
  unfold tableSet
  rw [h]
  simp [tableKeys]

theorem tableKeys_tableSet_present {K V : Type} [DecidableEq K] (mp : List (K × V)) (key : K)
    (value : V) (h : tableGet mp key ≠ none) :
    tableKeys (tableSet mp key value) = tableKeys mp := by
  unfold tableSet
  cases hg : tableGet mp key with
  | none => exact absurd hg h
  | some old =>
    simp only [tableKeys, List.map_map]
    apply List.map_congr_left
    intro e _
    by_cases h1 : e.1 = key
    · simp [h1]
    · simp [h1]

theorem tableGet_map_set {K V : Type} [DecidableEq K] (mp : List (K × V)) (key other : K)
    (value : V) :
    tableGet (mp.map (fun e => if e.1 = key then (key, value) else e)) other =
      if other = key then (tableGet mp key).map (fun _ => value) else tableGet mp other := by
  induction mp with
  | nil => simp [tableGet]
  | cons e rest ih =>
    by_cases h1 : e.1 = key
    · by_cases h2 : other = key
      · simp [tableGet, h1, h2]
      · have h3 : ¬ key = other := fun h => h2 h.symm
        simp [tableGet, h1, h2, h3, ih]
    · by_cases h2 : other = key
      · subst h2
        simp [tableGet, h1, ih]
      · simp only [List.map_cons, tableGet, h1, if_false, ih, h2]

theorem tableGet_append_single {K V : Type} [DecidableEq K] (mp : List (K × V)) (key other : K)
    (value : V) :
    tableGet (mp ++ [(key, value)]) other =
      match tableGet mp other with
      | some old => some old
      | none => if key = other then some value else none := by
  induction mp with
  | nil => simp [tableGet]
  | cons e rest ih =>
    by_cases h1 : e.1 = other
    · simp [tableGet, h1]
    · simp [tableGet, h1, ih]

theorem tableGet_tableSet_self {K V : Type} [DecidableEq K] (mp : List (K × V)) (key : K)
    (value : V) : tableGet (tableSet mp key value) key = some value := by
  unfold tableSet
  cases hg : tableGet mp key with
  | none => simp [tableGet_append_single, hg]
  | some old => simp [tableGet_map_set, hg]

theorem tableGet_tableSet_ne {K V : Type} [DecidableEq K] (mp : List (K × V)) (key other : K)
    (value : V) (h : other ≠ key) :
    tableGet (tableSet mp key value) other = tableGet mp other := by
  unfold tableSet
  have h2 : ¬ key = other := fun h3 => h h3.symm
  cases hg : tableGet mp key with
  | none =>
    simp only [tableGet_append_single, h2, if_false]
    cases tableGet mp other <;> rfl
  | some old => simp [tableGet_map_set, h]

/-! ## The calls, case by case -/

theorem deleteNoLock_absent {K V : Type} [DecidableEq K] (st : Map K V) (key : K)
    (h : tableGet st.mp key = none) : deleteNoLock st key = st := by
  unfold deleteNoLock; rw [h]

theorem deleteNoLock_present {K V : Type} [DecidableEq K] (st : Map K V) (key : K)
    (h : tableGet st.mp key ≠ none) :
    deleteNoLock st key =
      { st with mp := tableDelete st.mp key, totalEntries := uintDec st.totalEntries } := by
  unfold deleteNoLock
  cases hg : tableGet st.mp key with
  | none => exact absurd hg h
  | some old => rfl

theorem deleteNoLock_mp {K V : Type} [DecidableEq K] (st : Map K V) (key : K) :
    (deleteNoLock st key).mp = tableDelete st.mp key := by
  unfold deleteNoLock
  cases hg : tableGet st.mp key with
  | none => exact (tableDelete_of_absent st.mp key hg).symm
  | some old => rfl

theorem deleteNoLock_entriesChan {K V : Type} [DecidableEq K] (st : Map K V) (key : K) :
    (deleteNoLock st key).entriesChan = st.entriesChan := by
  unfold deleteNoLock
  cases tableGet st.mp key <;> rfl

theorem deleteNoLock_maxEntries {K V : Type} [DecidableEq K] (st : Map K V) (key : K) :
    (deleteNoLock st key).maxEntries = st.maxEntries := by
  unfold deleteNoLock
  cases tableGet st.mp key <;> rfl

theorem storeEntry_sent {K V : Type} [DecidableEq K] (st : Map K V) (key : K) (value : V)
    (h : st.entriesChan.buf.length < st.entriesChan.cap) :
    storeEntry st key value =
      ({ mp := tableSet st.mp key value,
         entriesChan := { cap := st.entriesChan.cap, buf := st.entriesChan.buf ++ [key] },
         totalEntries := uintInc st.totalEntries,
         maxEntries := st.maxEntries }, none) := by
  simp [storeEntry, Chan.trySend, h]

theorem storeEntry_full {K V : Type} [DecidableEq K] (st : Map K V) (key : K) (value : V)
    (h : ¬ st.entriesChan.buf.length < st.entriesChan.cap) :
    storeEntry st key value =
      (deleteNoLock { st with mp := tableSet st.mp key value,
                              totalEntries := uintInc st.totalEntries } key,
       some (.addingEntry key)) := by
  simp [storeEntry, Chan.trySend, h]

theorem Store_below {K V : Type} [DecidableEq K] (st : Map K V) (key : K) (value : V)
    (h : st.totalEntries < st.maxEntries) : Store st key value = storeEntry st key value := by
  unfold Store
  rw [if_neg (Nat.not_le.mpr h)]

theorem Store_empty {K V : Type} [DecidableEq K] (st : Map K V) (key : K) (value : V)
    (h : st.totalEntries ≥ st.maxEntries) (hb : st.entriesChan.buf = []) :
    Store st key value = (st, some .noFirstKey) := by
  unfold Store
  rw [if_pos h]
  simp [getFirstKey, Chan.tryRecv, hb]

theorem Store_evict {K V : Type} [DecidableEq K] (st : Map K V) (key : K) (value : V)
    (first : K) (rest : List K)
    (h : st.totalEntries ≥ st.maxEntries) (hb : st.entriesChan.buf = first :: rest) :
    Store st key value =
      storeEntry (deleteNoLock { st with entriesChan := { st.entriesChan with buf := rest } }
        first) key value := by
  unfold Store
  rw [if_pos h]
  simp [getFirstKey, Chan.tryRecv, hb]

/-! ## Consistency is kept by every call -/

theorem consistent_NewMap {K V : Type} (maxEntries : Nat) :
    Consistent (NewMap maxEntries : Map K V) := by
  simp [Consistent, NewMap, initializeMap, Chan.make, tableKeys]

theorem consistent_deleteNoLock {K V : Type} [DecidableEq K] (st : Map K V) (key : K)
    (h : Consistent st) : Consistent (deleteNoLock st key) := by
  obtain ⟨h1, h2, h3, h4⟩ := h
  unfold Consistent
  rw [deleteNoLock_mp, deleteNoLock_entriesChan, deleteNoLock_maxEntries, tableKeys_tableDelete]
  refine ⟨h1.filter _, ?_, h3, h4⟩
  intro a ha
  exact h2 a (List.mem_of_mem_filter ha)

theorem consistent_dequeue {K V : Type} [DecidableEq K] (st : Map K V) (first : K)
    (rest : List K) (h : Consistent st) (hb : st.entriesChan.buf = first :: rest) :
    Consistent (deleteNoLock { st with entriesChan := { st.entriesChan with buf := rest } }
      first) ∧
    (deleteNoLock { st with entriesChan := { st.entriesChan with buf := rest } }
      first).entriesChan.buf.length < st.entriesChan.cap := by
  obtain ⟨h1, h2, h3, h4⟩ := h
  unfold Consistent
  rw [deleteNoLock_mp, deleteNoLock_entriesChan, deleteNoLock_maxEntries, tableKeys_tableDelete]
  rw [hb] at h2 h3
  simp only [List.length_cons] at h3
  refine ⟨⟨h1.filter _, ?_, by simp only; omega, h4⟩, by simp only; omega⟩
  intro a ha
  have ha1 := List.mem_of_mem_filter ha
  have ha2 : a ≠ first := by simpa using (List.mem_filter.mp ha).2
  cases List.mem_cons.mp (h2 a ha1) with
  | inl h5 => exact absurd h5 ha2
  | inr h5 => exact h5

theorem consistent_storeEntry {K V : Type} [DecidableEq K] (st : Map K V) (key : K)
    (value : V) (h : Consistent st) : Consistent (storeEntry st key value).1 := by
  by_cases hl : st.entriesChan.buf.length < st.entriesChan.cap
  · rw [storeEntry_sent st key value hl]
    obtain ⟨h1, h2, _, h4⟩ := h
    unfold Consistent
    simp only [List.length_append, List.length_singleton]
    cases hg : tableGet st.mp key with
    | none =>
      rw [tableKeys_tableSet_absent st.mp key value hg]
      refine ⟨?_, ?_, hl, h4⟩
      · rw [List.nodup_append]
        refine ⟨h1, List.nodup_singleton key, ?_⟩
        intro a ha hb
        rw [List.mem_singleton] at hb
        rw [tableGet_eq_none_iff] at hg
        exact hg (hb ▸ ha)
      · intro a ha
        rw [List.mem_append] at ha ⊢
        exact ha.imp (h2 a) id
    | some old =>
      rw [tableKeys_tableSet_present st.mp key value (by rw [hg]; exact Option.some_ne_none old)]
      exact ⟨h1, fun a ha => List.mem_append_left _ (h2 a ha), hl, h4⟩
  · rw [storeEntry_full st key value hl]
    obtain ⟨h1, h2, h3, h4⟩ := h
    unfold Consistent
    rw [deleteNoLock_mp, deleteNoLock_entriesChan, deleteNoLock_maxEntries,
      tableKeys_tableDelete]
    simp only
    have hsub : ∀ a ∈ (tableKeys (tableSet st.mp key value)).filter
        (fun a => decide (a ≠ key)), a ∈ tableKeys st.mp := by
      intro a ha
      have ha1 := List.mem_of_mem_filter ha
      have ha2 : a ≠ key := by simpa using (List.mem_filter.mp ha).2
      rw [← tableGet_ne_none_iff] at ha1 ⊢
      rwa [tableGet_tableSet_ne st.mp key a value ha2] at ha1
    refine ⟨?_, fun a ha => h2 a (hsub a ha), h3, h4⟩
    cases hg : tableGet st.mp key with
    | none =>
      rw [tableKeys_tableSet_absent st.mp key value hg]
      refine List.Nodup.filter _ ?_
      rw [List.nodup_append]
      refine ⟨h1, List.nodup_singleton key, ?_⟩
      intro a ha hb
      rw [List.mem_singleton] at hb
      rw [tableGet_eq_none_iff] at hg
      exact hg (hb ▸ ha)
    | some old =>
      rw [tableKeys_tableSet_present st.mp key value (by rw [hg]; exact Option.some_ne_none old)]
      exact h1.filter _

theorem consistent_Store {K V : Type} [DecidableEq K] (st : Map K V) (key : K)
    (value : V) (h : Consistent st) : Consistent (Store st key value).1 := by
  by_cases ht : st.totalEntries < st.maxEntries
  · rw [Store_below st key value ht]
    exact consistent_storeEntry st key value h
  · have ht2 : st.totalEntries ≥ st.maxEntries := Nat.le_of_not_lt ht
    cases hb : st.entriesChan.buf with
    | nil => rw [Store_empty st key value ht2 hb]; exact h
    | cons first rest =>
      rw [Store_evict st key value first rest ht2 hb]
      exact consistent_storeEntry _ key value (consistent_dequeue st first rest h hb).1

theorem consistent_applyOp {K V : Type} [DecidableEq K] (st : Map K V) (op : Op K V)
    (h : Consistent st) : Consistent (applyOp st op) := by
  cases op with
  | store key value => exact consistent_Store st key value h
  | delete key => exact consistent_deleteNoLock st key h

theorem consistent_runOps {K V : Type} [DecidableEq K] (ops : List (Op K V)) (st : Map K V)
    (h : Consistent st) : Consistent (runOps st ops) := by
  induction ops generalizing st with
  | nil => exact h
  | cons op rest ih => exact ih (applyOp st op) (consistent_applyOp st op h)

theorem runOps_append {K V : Type} [DecidableEq K] (st : Map K V) (ops more : List (Op K V)) :
    runOps st (ops ++ more) = runOps (runOps st ops) more := by
  simp [runOps, List.foldl_append]

theorem tableLen_le_of_consistent {K V : Type} (st : Map K V) (h : Consistent st) :
    tableLen st.mp ≤ st.maxEntries := by
  obtain ⟨h1, h2, h3, h4⟩ := h
  have hlen : (tableKeys st.mp).length ≤ st.entriesChan.buf.length :=
    (List.subperm_of_subset h1 h2).length_le
  have : tableLen st.mp = (tableKeys st.mp).length := by simp [tableLen, tableKeys]
  omega

/-! ## The counter -/

theorem uintInc_of_lt (n : Nat) (h : n + 1 < uintSize) : uintInc n = n + 1 :=
  Nat.mod_eq_of_lt h

theorem uintDec_of_pos (n : Nat) (h1 : 1 ≤ n) (h2 : n < uintSize) : uintDec n = n - 1 := by
  unfold uintDec
  have : n + uintSize - 1 = (n - 1) + uintSize := by omega
  rw [this, Nat.add_mod_right]
  exact Nat.mod_eq_of_lt (by omega)

/-! ## Filling an empty map with distinct keys -/

theorem tableGet_of_mem {K V : Type} [DecidableEq K] (mp : List (K × V)) (key : K)
    (value : V) (hn : (tableKeys mp).Nodup) (hm : (key, value) ∈ mp) :
    tableGet mp key = some value := by
  induction mp with
  | nil => simp at hm
  | cons e rest ih =>
    simp only [tableKeys, List.map_cons, List.nodup_cons] at hn
    cases List.mem_cons.mp hm with
    | inl h => subst h; simp [tableGet]
    | inr h =>
      have hne : ¬ e.1 = key := by
        intro h1
        exact hn.1 (h1 ▸ List.mem_map_of_mem Prod.fst h)
      simp only [tableGet, hne, if_false]
      exact ih hn.2 h

theorem tableSet_absent {K V : Type} [DecidableEq K] (mp : List (K × V)) (key : K)
    (value : V) (h : key ∉ tableKeys mp) : tableSet mp key value = mp ++ [(key, value)] := by
  unfold tableSet
  rw [(tableGet_eq_none_iff mp key).mpr h]

theorem NewMap_eq_filled {K V : Type} (maxEntries : Nat) :
    (NewMap maxEntries : Map K V) = filled maxEntries [] := rfl

theorem Store_filled_below {K V : Type} [DecidableEq K] (N : Nat) (pre : List (K × V))
    (key : K) (value : V) (hlen : pre.length < N) (hU : N < uintSize)
    (hk : key ∉ tableKeys pre) :
    Store (filled N pre) key value = (filled N (pre ++ [(key, value)]), none) := by
  rw [Store_below _ key value (by simpa [filled] using hlen)]
  rw [storeEntry_sent _ key value (by simpa [filled, tableKeys] using hlen)]
  simp only [filled, tableSet_absent pre key value hk, uintInc_of_lt pre.length (by omega),
    tableKeys, List.map_append, List.map_cons, List.map_nil, List.length_append,
    List.length_singleton]

theorem storeAll_filled {K V : Type} [DecidableEq K] (N : Nat) (hU : N < uintSize)
    (rest pre : List (K × V)) (hlen : pre.length + rest.length ≤ N)
    (hn : (tableKeys (pre ++ rest)).Nodup) :
    storeAll (filled N pre) rest = (filled N (pre ++ rest), List.replicate rest.length none) := by
  induction rest generalizing pre with
  | nil => simp [storeAll]
  | cons e rest ih =>
    obtain ⟨key, value⟩ := e
    simp only [List.length_cons] at hlen
    have hk : key ∉ tableKeys pre := by
      intro hmem
      simp only [tableKeys, List.map_append, List.map_cons] at hn
      rw [List.nodup_append] at hn
      exact hn.2.2 hmem (List.mem_cons_self _ _)
    have hstep := Store_filled_below N pre key value (by omega) hU hk
    have hrest := ih (pre ++ [(key, value)])
      (by simp only [List.length_append, List.length_singleton]; omega)
      (by simpa using hn)
    simp only [storeAll, hstep, hrest, List.append_assoc, List.singleton_append,
      List.length_cons, List.replicate_succ]

theorem Store_filled_full {K V : Type} [DecidableEq K] (N : Nat) (hU : N < uintSize)
    (first : K × V) (tl : List (K × V)) (key : K) (value : V)
    (hlen : tl.length + 1 = N)
    (hn : (tableKeys (first :: tl ++ [(key, value)])).Nodup) :
    Store (filled N (first :: tl)) key value = (filled N (tl ++ [(key, value)]), none) := by
  simp only [tableKeys, List.cons_append, List.map_cons, List.map_append, List.map_nil,
    List.nodup_cons, List.mem_append, List.mem_singleton, not_or] at hn
  obtain ⟨⟨hf1, hf2⟩, hn2⟩ := hn
  rw [List.nodup_append] at hn2
  have hk : key ∉ tableKeys tl := fun hmem => hn2.2.2 hmem (List.mem_singleton_self key)
  have hpres : tableGet (first :: tl) first.1 ≠ none := by simp [tableGet]
  have hdel : tableDelete (first :: tl) first.1 = tl := by
    have h1 : tableDelete (first :: tl) first.1 = tableDelete tl first.1 := by
      simp [tableDelete]
    rw [h1]
    exact tableDelete_of_absent tl first.1 ((tableGet_eq_none_iff tl first.1).mpr hf1)
  rw [Store_evict (filled N (first :: tl)) key value first.1 (tableKeys tl)
    (by simp [filled]; omega) (by simp [filled, tableKeys])]
  rw [deleteNoLock_present _ first.1 (by simpa [filled] using hpres)]
  rw [storeEntry_sent _ key value (by simp [filled, tableKeys]; omega)]
  simp only [filled, hdel, tableSet_absent tl key value hk, List.length_cons,
    uintDec_of_pos (tl.length + 1) (by omega) (by omega), Nat.add_sub_cancel,
    uintInc_of_lt tl.length (by omega), tableKeys, List.map_append, List.map_cons,
    List.map_nil, List.length_append, List.length_singleton, List.length_nil, Nat.zero_add]

theorem storeAll_append {K V : Type} [DecidableEq K] (st : Map K V) (xs ys : List (K × V)) :
    storeAll st (xs ++ ys) =
      ((storeAll (storeAll st xs).1 ys).1, (storeAll st xs).2 ++ (storeAll (storeAll st xs).1 ys).2) := by
  induction xs generalizing st with
  | nil => simp [storeAll]
  | cons e xs ih =>
    obtain ⟨key, value⟩ := e
    simp only [List.cons_append, storeAll, List.append_eq, ih]

theorem storeAll_overfull {K V : Type} [DecidableEq K] (N : Nat) (hN : 1 ≤ N)
    (hU : N < uintSize) (kvs : List (K × V)) (hlen : kvs.length = N + 1)
    (hn : (tableKeys kvs).Nodup) :
    storeAll (NewMap N) kvs = (filled N kvs.tail, List.replicate (N + 1) none) := by
  have hne : kvs ≠ [] := by intro h; simp [h] at hlen
  have hsplit : kvs = kvs.dropLast ++ [kvs.getLast hne] :=
    (List.dropLast_append_getLast hne).symm
  have hdl : kvs.dropLast.length = N := by simp [hlen]
  generalize kvs.getLast hne = last at hsplit
  cases hd : kvs.dropLast with
  | nil => rw [hd] at hdl; simp at hdl; omega
  | cons first tl =>
    rw [hd] at hsplit hdl
    clear hd
    subst hsplit
    simp only [List.length_cons] at hdl
    have hn1 : (tableKeys ([] ++ (first :: tl))).Nodup := by
      simp only [tableKeys, List.map_append, List.nil_append] at hn ⊢
      exact (List.nodup_append.mp hn).1
    have h1 := storeAll_filled N hU (first :: tl) [] (by simp; omega) hn1
    have h2 := Store_filled_full N hU first tl last.1 last.2 hdl hn
    rw [storeAll_append, NewMap_eq_filled, h1]
    simp only [List.nil_append, storeAll, h2, List.length_cons, hdl, List.cons_append,
      List.tail_cons]
    rw [← List.replicate_succ']

/-! ## Observations through `Load` -/

theorem Load_found_iff {K V : Type} [DecidableEq K] (st : Map K V) (key : K) :
    (Load st key).2 = true ↔ tableGet st.mp key ≠ none := by
  unfold Load
  cases tableGet st.mp key <;> simp

theorem Load_eq_of_tableGet_eq {K V : Type} [DecidableEq K] (st st2 : Map K V)
    (key : K) (h : tableGet st2.mp key = tableGet st.mp key) : Load st2 key = Load st key := by
  unfold Load
  rw [h]

theorem Load_storeEntry_of_ok {K V : Type} [DecidableEq K] (st : Map K V) (key : K)
    (value : V) (h : (storeEntry st key value).2 = none) :
    Load (storeEntry st key value).1 key = (some value, true) := by
  by_cases hl : st.entriesChan.buf.length < st.entriesChan.cap
  · rw [storeEntry_sent st key value hl]
    simp [Load, tableGet_tableSet_self]
  · rw [storeEntry_full st key value hl] at h
    simp at h

theorem Load_Store_of_ok {K V : Type} [DecidableEq K] (st : Map K V) (key : K)
    (value : V) (h : (Store st key value).2 = none) :
    Load (Store st key value).1 key = (some value, true) := by
  by_cases ht : st.totalEntries < st.maxEntries
  · rw [Store_below st key value ht] at h ⊢
    exact Load_storeEntry_of_ok st key value h
  · have ht2 : st.totalEntries ≥ st.maxEntries := Nat.le_of_not_lt ht
    cases hb : st.entriesChan.buf with
    | nil =>
      rw [Store_empty st key value ht2 hb] at h
      simp at h
    | cons first rest =>
      rw [Store_evict st key value first rest ht2 hb] at h ⊢
      exact Load_storeEntry_of_ok _ key value h

/-! ## Fields that the calls keep -/

theorem storeEntry_maxEntries {K V : Type} [DecidableEq K] (st : Map K V) (key : K)
    (value : V) : (storeEntry st key value).1.maxEntries = st.maxEntries := by
  by_cases hl : st.entriesChan.buf.length < st.entriesChan.cap
  · rw [storeEntry_sent st key value hl]
  · rw [storeEntry_full st key value hl, deleteNoLock_maxEntries]

theorem Store_maxEntries {K V : Type} [DecidableEq K] (st : Map K V) (key : K)
    (value : V) : (Store st key value).1.maxEntries = st.maxEntries := by
  by_cases ht : st.totalEntries < st.maxEntries
  · rw [Store_below st key value ht, storeEntry_maxEntries]
  · have ht2 : st.totalEntries ≥ st.maxEntries := Nat.le_of_not_lt ht
    cases hb : st.entriesChan.buf with
    | nil => rw [Store_empty st key value ht2 hb]
    | cons first rest =>
      rw [Store_evict st key value first rest ht2 hb, storeEntry_maxEntries,
        deleteNoLock_maxEntries]

theorem runOps_maxEntries {K V : Type} [DecidableEq K] (ops : List (Op K V)) (st : Map K V) :
    (runOps st ops).maxEntries = st.maxEntries := by
  induction ops generalizing st with
  | nil => rfl
  | cons op rest ih =>
    have hstep : (applyOp st op).maxEntries = st.maxEntries := by
      cases op with
      | store key value => exact Store_maxEntries st key value
      | delete key => exact deleteNoLock_maxEntries st key
    exact (ih (applyOp st op)).trans hstep

/-! ## The size of the table -/

theorem tableLen_tableSet_present {K V : Type} [DecidableEq K] (mp : List (K × V)) (key : K)
    (value : V) (h : tableGet mp key ≠ none) :
    tableLen (tableSet mp key value) = tableLen mp := by
  unfold tableSet
  cases hg : tableGet mp key with
  | none => exact absurd hg h
  | some old => simp [tableLen]

theorem tableLen_tableSet_absent {K V : Type} [DecidableEq K] (mp : List (K × V)) (key : K)
    (value : V) (h : tableGet mp key = none) :
    tableLen (tableSet mp key value) = tableLen mp + 1 := by
  unfold tableSet
  rw [h]
  simp [tableLen]

theorem tableLen_tableDelete_le {K V : Type} [DecidableEq K] (mp : List (K × V)) (key : K) :
    tableLen (tableDelete mp key) ≤ tableLen mp :=
  List.length_filter_le _ mp

theorem tableLen_tableDelete_lt {K V : Type} [DecidableEq K] (mp : List (K × V)) (key : K)
    (h : tableGet mp key ≠ none) : tableLen (tableDelete mp key) < tableLen mp := by
  induction mp with
  | nil => simp [tableGet] at h
  | cons e rest ih =>
    by_cases h1 : e.1 = key
    · have : tableDelete (e :: rest) key = tableDelete rest key := by simp [tableDelete, h1]
      rw [this]
      have := tableLen_tableDelete_le rest key
      simp only [tableLen, List.length_cons] at this ⊢
      omega
    · have h2 : tableGet rest key ≠ none := by simpa [tableGet, h1] using h
      have : tableDelete (e :: rest) key = e :: tableDelete rest key := by
        simp [tableDelete, h1]
      rw [this]
      have := ih h2
      simp only [tableLen, List.length_cons] at this ⊢
      omega

/-! ## Calls of `Store` alone -/

theorem storeOnly_NewMap {K V : Type} (maxEntries : Nat) :
    StoreOnly maxEntries 0 (NewMap maxEntries : Map K V) := by
  simp [StoreOnly, NewMap, initializeMap, Chan.make, zeroMap]

theorem storeOnly_Store {K V : Type} [DecidableEq K] (N done : Nat) (st : Map K V)
    (key : K) (value : V) (hN : 1 ≤ N) (hdone : done + 1 < uintSize)
    (h : StoreOnly N done st) :
    (Store st key value).2 = none ∧ StoreOnly N (done + 1) (Store st key value).1 := by
  obtain ⟨hmax, hcap, hlen, htot⟩ := h
  by_cases ht : st.totalEntries < st.maxEntries
  · have hl : st.entriesChan.buf.length < st.entriesChan.cap := by
      rw [hlen, hcap]; rw [hmax] at ht; omega
    rw [Store_below st key value ht, storeEntry_sent st key value hl]
    refine ⟨rfl, hmax, hcap, ?_, ?_⟩
    · simp only [List.length_append, List.length_singleton, hlen,
        uintInc_of_lt st.totalEntries (by omega)]
      rw [hmax] at ht; omega
    · simp only [uintInc_of_lt st.totalEntries (by omega)]; omega
  · have ht2 : st.totalEntries ≥ st.maxEntries := Nat.le_of_not_lt ht
    rw [hmax] at ht2
    cases hb : st.entriesChan.buf with
    | nil => rw [hb] at hlen; simp only [List.length_nil] at hlen; omega
    | cons first rest =>
      rw [hb] at hlen
      simp only [List.length_cons] at hlen
      rw [Store_evict st key value first rest (by rw [hmax]; exact ht2) hb]
      have hl : (deleteNoLock { st with entriesChan := { st.entriesChan with buf := rest } }
          first).entriesChan.buf.length <
          (deleteNoLock { st with entriesChan := { st.entriesChan with buf := rest } }
            first).entriesChan.cap := by
        rw [deleteNoLock_entriesChan]; simp only; omega
      rw [storeEntry_sent _ key value hl]
      simp only [StoreOnly, deleteNoLock_entriesChan, deleteNoLock_maxEntries,
        List.length_append, List.length_singleton]
      refine ⟨trivial, hmax, hcap, ?_⟩
      cases hg : tableGet st.mp first with
      | none =>
        rw [deleteNoLock_absent _ first (by simpa using hg)]
        simp only [uintInc_of_lt st.totalEntries (by omega)]
        omega
      | some old =>
        rw [deleteNoLock_present _ first (by simp [hg])]
        simp only [uintDec_of_pos st.totalEntries (by omega) (by omega)]
        rw [uintInc_of_lt (st.totalEntries - 1) (by omega)]
        omega

theorem storeOnly_storeAll {K V : Type} [DecidableEq K] (N : Nat) (hN : 1 ≤ N)
    (kvs : List (K × V)) (done : Nat) (st : Map K V) (hlen : done + kvs.length < uintSize)
    (h : StoreOnly N done st) :
    (storeAll st kvs).2 = List.replicate kvs.length none := by
  induction kvs generalizing done st with
  | nil => rfl
  | cons e rest ih =>
    obtain ⟨key, value⟩ := e
    simp only [List.length_cons] at hlen
    have hstep := storeOnly_Store N done st key value hN (by omega) h
    have hrest := ih (done + 1) (Store st key value).1 (by omega) hstep.2
    simp only [storeAll, hstep.1, hrest, List.length_cons, List.replicate_succ]

/-! ## Storing a key that is present -/

theorem overwrite_of_consistent {K V : Type} [DecidableEq K] (st : Map K V) (key : K)
    (value : V) (hc : Consistent st) (hpres : tableGet st.mp key ≠ none) :
    (¬ (st.totalEntries < st.maxEntries ∧ st.entriesChan.buf.length = st.maxEntries) →
      (Store st key value).2 = none) ∧
    ((Store st key value).2 = none →
      tableLen (Store st key value).1.mp ≤ tableLen st.mp ∧
      (st.totalEntries < st.maxEntries →
        tableLen (Store st key value).1.mp = tableLen st.mp ∧
        (Store st key value).1.totalEntries = (st.totalEntries + 1) % uintSize)) := by
  by_cases ht : st.totalEntries < st.maxEntries
  · rw [Store_below st key value ht]
    by_cases hl : st.entriesChan.buf.length < st.entriesChan.cap
    · rw [storeEntry_sent st key value hl]
      refine ⟨fun _ => rfl, fun _ => ⟨?_, fun _ => ⟨?_, rfl⟩⟩⟩
      · exact le_of_eq (tableLen_tableSet_present st.mp key value hpres)
      · exact tableLen_tableSet_present st.mp key value hpres
    · rw [storeEntry_full st key value hl]
      refine ⟨fun hnot => ?_, fun hok => ?_⟩
      · exfalso
        apply hnot
        obtain ⟨_, _, h3, h4⟩ := hc
        exact ⟨ht, by omega⟩
      · simp at hok
  · have ht2 : st.totalEntries ≥ st.maxEntries := Nat.le_of_not_lt ht
    have hmem : key ∈ st.entriesChan.buf := hc.2.1 key ((tableGet_ne_none_iff _ key).mp hpres)
    cases hb : st.entriesChan.buf with
    | nil => rw [hb] at hmem; simp at hmem
    | cons first rest =>
      rw [Store_evict st key value first rest ht2 hb]
      have hdq := consistent_dequeue st first rest hc hb
      have hl : (deleteNoLock { st with entriesChan := { st.entriesChan with buf := rest } }
          first).entriesChan.buf.length <
          (deleteNoLock { st with entriesChan := { st.entriesChan with buf := rest } }
            first).entriesChan.cap := by
        have := hdq.2
        rw [deleteNoLock_entriesChan] at this ⊢
        exact this
      rw [storeEntry_sent _ key value hl]
      refine ⟨fun _ => rfl, fun _ => ⟨?_, fun h => absurd h ht⟩⟩
      simp only [deleteNoLock_mp]
      by_cases hk : first = key
      · subst hk
        rw [tableLen_tableSet_absent _ first value (tableGet_tableDelete_self st.mp first)]
        exact tableLen_tableDelete_lt st.mp first hpres
      · have hstill : tableGet (tableDelete st.mp first) key ≠ none := by
          rw [tableGet_tableDelete_ne st.mp first key (fun h => hk h.symm)]
          exact hpres
        rw [tableLen_tableSet_present _ key value hstill]
        exact tableLen_tableDelete_le st.mp first

/-! ## Properties kept along a sequence of calls -/

theorem runOps_induction {K V : Type} [DecidableEq K] (P : Map K V → Prop)
    (hstep : ∀ st op, P st → P (applyOp st op)) (ops : List (Op K V)) (st : Map K V)
    (h : P st) : P (runOps st ops) := by
  induction ops generalizing st with
  | nil => exact h
  | cons op rest ih => exact ih (applyOp st op) (hstep st op h)

theorem tableLen_le_queue {K V : Type} (st : Map K V) (h : Consistent st) :
    tableLen st.mp ≤ st.entriesChan.buf.length := by
  obtain ⟨h1, h2, _, _⟩ := h
  have hlen : (tableKeys st.mp).length ≤ st.entriesChan.buf.length :=
    (List.subperm_of_subset h1 h2).length_le
  have : tableLen st.mp = (tableKeys st.mp).length := by simp [tableLen, tableKeys]
  omega

/-! ## The result of `Store` -/

theorem storeEntry_error_iff {K V : Type} [DecidableEq K] (st : Map K V) (key : K)
    (value : V) :
    (storeEntry st key value).2 ≠ none ↔ ¬ st.entriesChan.buf.length < st.entriesChan.cap := by
  by_cases hl : st.entriesChan.buf.length < st.entriesChan.cap
  · rw [storeEntry_sent st key value hl]; simp [hl]
  · rw [storeEntry_full st key value hl]; simp [hl]

theorem storeEntry_ne_noFirstKey {K V : Type} [DecidableEq K] (st : Map K V) (key : K)
    (value : V) : (storeEntry st key value).2 ≠ some .noFirstKey := by
  by_cases hl : st.entriesChan.buf.length < st.entriesChan.cap
  · rw [storeEntry_sent st key value hl]; simp
  · rw [storeEntry_full st key value hl]; simp

theorem Store_evict_ok {K V : Type} [DecidableEq K] (st : Map K V) (key : K) (value : V)
    (first : K) (rest : List K) (h : st.totalEntries ≥ st.maxEntries)
    (hb : st.entriesChan.buf = first :: rest)
    (hl : st.entriesChan.buf.length ≤ st.entriesChan.cap) :
    Store st key value =
      ({ mp := tableSet (tableDelete st.mp first) key value,
         entriesChan := { cap := st.entriesChan.cap, buf := rest ++ [key] },
         totalEntries := uintInc (deleteNoLock
           { st with entriesChan := { st.entriesChan with buf := rest } } first).totalEntries,
         maxEntries := st.maxEntries }, none) := by
  rw [Store_evict st key value first rest h hb]
  rw [hb] at hl
  simp only [List.length_cons] at hl
  rw [storeEntry_sent _ key value (by rw [deleteNoLock_entriesChan]; simp only; omega)]
  simp only [deleteNoLock_mp, deleteNoLock_entriesChan, deleteNoLock_maxEntries]

/-! ## The empty queue -/

theorem empty_queue_applyOp {K V : Type} [DecidableEq K] (n : Nat) (hn : 1 ≤ n)
    (st : Map K V) (op : Op K V)
    (h : Consistent st ∧ (st.entriesChan.buf = [] → st = NewMap n)) :
    Consistent (applyOp st op) ∧
      ((applyOp st op).entriesChan.buf = [] → applyOp st op = NewMap n) := by
  obtain ⟨hc, he⟩ := h
  refine ⟨consistent_applyOp st op hc, ?_⟩
  cases op with
  | delete key =>
    intro hb
    have hb2 : st.entriesChan.buf = [] := by
      simpa [applyOp, Delete, deleteNoLock_entriesChan] using hb
    have hst := he hb2
    show deleteNoLock st key = NewMap n
    rw [hst]
    rfl
  | store key value =>
    intro hb
    exfalso
    simp only [applyOp] at hb
    cases hq : st.entriesChan.buf with
    | nil =>
      have hst := he hq
      rw [hst] at hb
      have hlt : (NewMap n : Map K V).totalEntries < (NewMap n : Map K V).maxEntries := hn
      have hroom : (NewMap n : Map K V).entriesChan.buf.length
          < (NewMap n : Map K V).entriesChan.cap := hn
      rw [Store_below _ key value hlt, storeEntry_sent _ key value hroom] at hb
      simp at hb
    | cons first rest =>
      by_cases ht : st.totalEntries < st.maxEntries
      · rw [Store_below st key value ht] at hb
        by_cases hl : st.entriesChan.buf.length < st.entriesChan.cap
        · rw [storeEntry_sent st key value hl] at hb
          simp at hb
        · rw [storeEntry_full st key value hl, deleteNoLock_entriesChan] at hb
          simp [hq] at hb
      · rw [Store_evict_ok st key value first rest (Nat.le_of_not_lt ht) hq hc.2.2.1] at hb
        simp at hb

theorem empty_queue_runOps {K V : Type} [DecidableEq K] (n : Nat) (hn : 1 ≤ n)
    (ops : List (Op K V)) (h : (runOps (NewMap n) ops).entriesChan.buf = []) :
    runOps (NewMap n) ops = NewMap n :=
  (runOps_induction (fun st => Consistent st ∧ (st.entriesChan.buf = [] → st = NewMap n))
    (empty_queue_applyOp n hn) ops (NewMap n) ⟨consistent_NewMap n, fun _ => rfl⟩).2 h

/-! ## The counter along a sequence of calls -/

theorem uintDec_uintInc (t : Nat) (h : t < uintSize) : uintDec (uintInc t) = t := by
  by_cases h1 : t + 1 < uintSize
  · rw [uintInc_of_lt t h1, uintDec_of_pos (t + 1) (by omega) h1]
    omega
  · have h2 : t + 1 = uintSize := by omega
    unfold uintInc uintDec
    rw [h2, Nat.mod_self, Nat.zero_add,
      Nat.mod_eq_of_lt (show uintSize - 1 < uintSize by omega)]
    omega

theorem uintInc_uintDec (t : Nat) (h1 : 1 ≤ t) (h : t < uintSize) :
    uintInc (uintDec t) = t := by
  rw [uintDec_of_pos t h1 h, uintInc_of_lt (t - 1) (by omega)]
  omega

theorem tableLen_tableSet_le {K V : Type} [DecidableEq K] (mp : List (K × V)) (key : K)
    (value : V) : tableLen (tableSet mp key value) ≤ tableLen mp + 1 := by
  cases hg : tableGet mp key with
  | none => exact le_of_eq (tableLen_tableSet_absent mp key value hg)
  | some old =>
    rw [tableLen_tableSet_present mp key value (by rw [hg]; exact Option.some_ne_none old)]
    exact Nat.le_succ _

theorem counted_deleteNoLock {K V : Type} [DecidableEq K] (done : Nat) (st : Map K V)
    (key : K) (hU : st.totalEntries < uintSize) (h : Counted done st) :
    Counted done (deleteNoLock st key) := by
  obtain ⟨h1, h2⟩ := h
  cases hg : tableGet st.mp key with
  | none => rw [deleteNoLock_absent st key hg]; exact ⟨h1, h2⟩
  | some old =>
    have hpres : tableGet st.mp key ≠ none := by rw [hg]; exact Option.some_ne_none old
    have hlt := tableLen_tableDelete_lt st.mp key hpres
    rw [deleteNoLock_present st key hpres]
    unfold Counted
    simp only [uintDec_of_pos st.totalEntries (by omega) hU]
    omega

theorem counted_storeEntry {K V : Type} [DecidableEq K] (done : Nat) (st : Map K V)
    (key : K) (value : V) (hU : done + 1 < uintSize) (h : Counted done st) :
    Counted (done + 1) (storeEntry st key value).1 := by
  obtain ⟨h1, h2⟩ := h
  have hle := tableLen_tableSet_le st.mp key value
  have hinc : uintInc st.totalEntries = st.totalEntries + 1 :=
    uintInc_of_lt st.totalEntries (by omega)
  by_cases hl : st.entriesChan.buf.length < st.entriesChan.cap
  · rw [storeEntry_sent st key value hl]
    unfold Counted
    simp only [hinc]
    omega
  · rw [storeEntry_full st key value hl]
    apply counted_deleteNoLock
    · simp only [hinc]; omega
    · unfold Counted
      simp only [hinc]
      omega

theorem counted_applyOp {K V : Type} [DecidableEq K] (done : Nat) (st : Map K V)
    (op : Op K V) (hU : done + 1 < uintSize) (h : Counted done st) :
    Counted (done + 1) (applyOp st op) := by
  have hmono : ∀ s : Map K V, Counted done s → Counted (done + 1) s :=
    fun s hs => ⟨hs.1, Nat.le_succ_of_le hs.2⟩
  have htot : st.totalEntries < uintSize := by have := h.2; omega
  cases op with
  | delete key => exact hmono _ (counted_deleteNoLock done st key htot h)
  | store key value =>
    show Counted (done + 1) (Store st key value).1
    by_cases ht : st.totalEntries < st.maxEntries
    · rw [Store_below st key value ht]
      exact counted_storeEntry done st key value hU h
    · have ht2 : st.totalEntries ≥ st.maxEntries := Nat.le_of_not_lt ht
      cases hq : st.entriesChan.buf with
      | nil => rw [Store_empty st key value ht2 hq]; exact hmono st h
      | cons first rest =>
        rw [Store_evict st key value first rest ht2 hq]
        apply counted_storeEntry done _ key value hU
        exact counted_deleteNoLock done _ first htot h

theorem counted_runOps {K V : Type} [DecidableEq K] (ops : List (Op K V)) (done : Nat)
    (st : Map K V) (hU : done + ops.length < uintSize) (h : Counted done st) :
    Counted (done + ops.length) (runOps st ops) := by
  induction ops generalizing done st with
  | nil => exact h
  | cons op rest ih =>
    simp only [List.length_cons] at hU ⊢
    have hstep := counted_applyOp done st op (by omega) h
    have := ih (done + 1) (applyOp st op) (by omega) hstep
    have he : done + (rest.length + 1) = done + 1 + rest.length := by omega
    rw [he]
    exact this

theorem counted_NewMap {K V : Type} (maxEntries : Nat) :
    Counted 0 (NewMap maxEntries : Map K V) := by
  simp [Counted, NewMap, initializeMap, zeroMap, tableLen]

/-! ## The state in which every `Store` fails -/

theorem stuck_Store {K V : Type} [DecidableEq K] (st : Map K V) (key : K) (value : V)
    (h : Stuck st) :
    (Store st key value).2 = some (.addingEntry key) ∧ Stuck (Store st key value).1 ∧
      (Store st key value).1.entriesChan = st.entriesChan ∧
      (Store st key value).1.maxEntries = st.maxEntries := by
  obtain ⟨hcap, hlen, hlt, hcnt, hU⟩ := h
  have hfull : ¬ st.entriesChan.buf.length < st.entriesChan.cap := by omega
  rw [Store_below st key value hlt, storeEntry_full st key value hfull]
  have hpres : tableGet (tableSet st.mp key value) key ≠ none := by
    rw [tableGet_tableSet_self]
    exact Option.some_ne_none value
  rw [deleteNoLock_present _ key hpres]
  refine ⟨rfl, ?_, rfl, rfl⟩
  have h1 := tableLen_tableSet_le st.mp key value
  have h2 := tableLen_tableDelete_lt (tableSet st.mp key value) key
    (by rw [tableGet_tableSet_self]; exact Option.some_ne_none value)
  unfold Stuck
  simp only [uintDec_uintInc st.totalEntries hU]
  exact ⟨hcap, hlen, hlt, by omega, hU⟩

theorem stuck_Delete {K V : Type} [DecidableEq K] (st : Map K V) (key : K) (h : Stuck st) :
    Stuck (Delete st key) ∧ (Delete st key).entriesChan = st.entriesChan ∧
      (Delete st key).maxEntries = st.maxEntries := by
  obtain ⟨hcap, hlen, hlt, hcnt, hU⟩ := h
  unfold Delete
  cases hg : tableGet st.mp key with
  | none =>
    rw [deleteNoLock_absent st key hg]
    exact ⟨⟨hcap, hlen, hlt, hcnt, hU⟩, rfl, rfl⟩
  | some old =>
    have hpres : tableGet st.mp key ≠ none := by rw [hg]; exact Option.some_ne_none old
    have hdl := tableLen_tableDelete_lt st.mp key hpres
    rw [deleteNoLock_present st key hpres]
    refine ⟨?_, rfl, rfl⟩
    unfold Stuck
    simp only [uintDec_of_pos st.totalEntries (by omega) hU]
    exact ⟨hcap, hlen, by omega, by omega, by omega⟩

theorem stuck_runOps {K V : Type} [DecidableEq K] (ops : List (Op K V)) (st : Map K V)
    (h : Stuck st) :
    Stuck (runOps st ops) ∧ (runOps st ops).entriesChan = st.entriesChan ∧
      (runOps st ops).maxEntries = st.maxEntries := by
  induction ops generalizing st with
  | nil => exact ⟨h, rfl, rfl⟩
  | cons op rest ih =>
    have hstep : Stuck (applyOp st op) ∧ (applyOp st op).entriesChan = st.entriesChan ∧
        (applyOp st op).maxEntries = st.maxEntries := by
      cases op with
      | store key value => exact (stuck_Store st key value h).2
      | delete key => exact stuck_Delete st key h
    have hrest := ih (applyOp st op) hstep.1
    exact ⟨hrest.1, hrest.2.1.trans hstep.2.1, hrest.2.2.trans hstep.2.2⟩

/-! ## A run that wraps the counter -/

theorem inflate_step (t : Nat) (h2 : 2 ≤ t) (hU : t < uintSize) :
    runOps (inflatedState t) inflateCycle = inflatedState (uintInc t) := by
  have e1 : (Store (inflatedState t) "b" 0).1
      = ⟨[("b", 0)], ⟨2, ["b", "b"]⟩, t, 2⟩ := by
    rw [Store_evict_ok (inflatedState t) "b" 0 "c" ["b"] h2 rfl (Nat.le_refl 2)]
    rw [deleteNoLock_present _ "c" (by simp [inflatedState, tableGet])]
    simp only [uintInc_uintDec t (by omega) hU, inflatedState]
    rfl
  have e2 : (Store (⟨[("b", 0)], ⟨2, ["b", "b"]⟩, t, 2⟩ : Map String Nat) "c" 0).1
      = ⟨[("c", 0)], ⟨2, ["b", "c"]⟩, t, 2⟩ := by
    rw [Store_evict_ok (⟨[("b", 0)], ⟨2, ["b", "b"]⟩, t, 2⟩ : Map String Nat) "c" 0 "b" ["b"]
      h2 rfl (Nat.le_refl 2)]
    rw [deleteNoLock_present _ "b" (by simp [tableGet])]
    simp only [uintInc_uintDec t (by omega) hU]
    rfl
  have e3 : (Store (⟨[("c", 0)], ⟨2, ["b", "c"]⟩, t, 2⟩ : Map String Nat) "b" 0).1
      = inflatedState (uintInc t) := by
    rw [Store_evict_ok (⟨[("c", 0)], ⟨2, ["b", "c"]⟩, t, 2⟩ : Map String Nat) "b" 0 "b" ["c"]
      h2 rfl (Nat.le_refl 2)]
    rw [deleteNoLock_absent _ "b" (by simp [tableGet])]
    rfl
  simp only [runOps, inflateCycle, List.foldl, applyOp, e1, e2, e3]

theorem inflate_cycles (m t : Nat) (h2 : 2 ≤ t) (hU : t < uintSize)
    (hm : t + m ≤ uintSize) :
    runOps (inflatedState t) (repeatOps m inflateCycle)
      = inflatedState ((t + m) % uintSize) := by
  induction m generalizing t with
  | zero =>
    rw [Nat.add_zero, Nat.mod_eq_of_lt hU]
    rfl
  | succ m ih =>
    rw [repeatOps, runOps_append, inflate_step t h2 hU]
    by_cases hlast : t + 1 < uintSize
    · rw [uintInc_of_lt t hlast, ih (t + 1) (by omega) hlast (by omega)]
      congr 2
      omega
    · have hm0 : m = 0 := by omega
      subst hm0
      rfl

theorem overflow_run : runOps (NewMap 2) overflowOps = inflatedState 0 := by
  have hstart : runOps (NewMap 2 : Map String Nat) [.store "c" 0, .store "b" 0]
      = inflatedState 2 := by decide
  have hcyc := inflate_cycles (uintSize - 2) 2 (Nat.le_refl 2) (by decide) (by decide)
  have hzero : (2 + (uintSize - 2)) % uintSize = 0 := by decide
  rw [overflowOps, runOps_append, hstart, hcyc, hzero]

theorem overflow_then_Store_fails (key : String) (value : Nat) :
    (Store (runOps (NewMap 2) overflowOps) key value).2 = some (.addingEntry key) := by
  rw [overflow_run]
  rfl

/-! ## The claims -/

/-- C1 (FIFO eviction): for every capacity `N ≥ 1` (a `uint`), every list of
`N + 1` pairwise-distinct keys and every list of `N + 1` values, the calls
`Store(k1, v1)`, ..., `Store(k(N+1), v(N+1))` on `NewMap(N)` all return `nil`,
and afterwards `Load(k1)` is `(nil, false)` while `Load(ki)` is `(vi, true)`
for every `i` in `2..N+1` (indices `1..N` counted from zero). -/
theorem fifo_eviction {K V : Type} [DecidableEq K] (N : Nat) (hN : 1 ≤ N)
    (hU : N < uintSize) (keys : List K) (vals : List V) (hk : keys.length = N + 1)
    (hv : vals.length = N + 1) (hd : keys.Nodup) :
    (storeAll (NewMap N) (keys.zip vals)).2 = List.replicate (N + 1) none ∧
    (∀ k1, keys[0]? = some k1 →
      Load (storeAll (NewMap N) (keys.zip vals)).1 k1 = (none, false)) ∧
    (∀ i ki vi, 1 ≤ i → keys[i]? = some ki → vals[i]? = some vi →
      Load (storeAll (NewMap N) (keys.zip vals)).1 ki = (some vi, true)) := by
  have hkeys : tableKeys (keys.zip vals) = keys := by
    unfold tableKeys
    exact List.map_fst_zip keys vals (by omega)
  have hrun := storeAll_overfull N hN hU (keys.zip vals)
    (by simp [List.length_zip, hk, hv]) (by rw [hkeys]; exact hd)
  rw [hrun]
  refine ⟨rfl, ?_, ?_⟩
  · intro k1 h0
    cases keys with
    | nil => simp at hk
    | cons k ktl =>
      cases vals with
      | nil => simp at hv
      | cons v vtl =>
        simp only [List.getElem?_cons_zero, Option.some.injEq] at h0
        subst h0
        have hlen : ktl.length ≤ vtl.length := by
          simp only [List.length_cons] at hk hv; omega
        have habs : tableGet (ktl.zip vtl) k = none := by
          rw [tableGet_eq_none_iff]
          unfold tableKeys
          rw [List.map_fst_zip ktl vtl hlen]
          exact (List.nodup_cons.mp hd).1
        simp [Load, filled, habs]
  · intro i ki vi hi hki hvi
    cases keys with
    | nil => simp at hk
    | cons k ktl =>
      cases vals with
      | nil => simp at hv
      | cons v vtl =>
        obtain ⟨j, rfl⟩ : ∃ j, i = j + 1 := ⟨i - 1, by omega⟩
        simp only [List.getElem?_cons_succ] at hki hvi
        have hlen : ktl.length ≤ vtl.length := by
          simp only [List.length_cons] at hk hv; omega
        have hmem : (ki, vi) ∈ ktl.zip vtl :=
          List.getElem?_mem (List.getElem?_zip_eq_some.mpr ⟨hki, hvi⟩)
        have hnd : (tableKeys (ktl.zip vtl)).Nodup := by
          unfold tableKeys
          rw [List.map_fst_zip ktl vtl hlen]
          exact (List.nodup_cons.mp hd).2
        have hget := tableGet_of_mem (ktl.zip vtl) ki vi hnd hmem
        simp [Load, filled, hget]

/-- Witness of C1: capacity 1 with the keys `"x"`, `"y"` (the scenario
`NewMap(1); Store("x", 10); Store("y", 20)`). -/
theorem fifo_eviction_witness :
    (storeAll (NewMap 1) (["x", "y"].zip [10, 20])).2 = List.replicate (1 + 1) none ∧
    (∀ k1, ["x", "y"][0]? = some k1 →
      Load (storeAll (NewMap 1 : Map String Nat) (["x", "y"].zip [10, 20])).1 k1
        = (none, false)) ∧
    (∀ i ki vi, 1 ≤ i → ["x", "y"][i]? = some ki → [10, 20][i]? = some vi →
      Load (storeAll (NewMap 1 : Map String Nat) (["x", "y"].zip [10, 20])).1 ki
        = (some vi, true)) :=
  fifo_eviction 1 (by decide) (by decide) ["x", "y"] [10, 20] rfl rfl (by decide)

/-- C2 (lookup correctness): for every map state, key `k` and value `v`, if
`Store(k, v)` returns `nil` then `Load(k)` on the resulting state returns
`(v, true)`. -/
theorem lookup_after_store {K V : Type} [DecidableEq K] (st : Map K V) (key : K) (value : V)
    (h : (Store st key value).2 = none) :
    Load (Store st key value).1 key = (some value, true) :=
  Load_Store_of_ok st key value h

/-- Witness of C2: storing `("a", 1)` in a fresh map of capacity 2. -/
theorem lookup_after_store_witness :
    (Store (NewMap 2 : Map String Nat) "a" 1).2 = none ∧
    Load (Store (NewMap 2 : Map String Nat) "a" 1).1 "a" = (some 1, true) :=
  ⟨by decide, lookup_after_store (NewMap 2) "a" 1 (by decide)⟩

/-- C3 (capacity bound): for every `maxEntries` and every finite sequence of
`Store` and `Delete` calls applied to `NewMap(maxEntries)`, the table holds no
key twice and the number of keys present in it is at most `maxEntries`. -/
theorem capacity_bound {K V : Type} [DecidableEq K] (maxEntries : Nat)
    (ops : List (Op K V)) :
    (tableKeys (runOps (NewMap maxEntries) ops).mp).Nodup ∧
    tableLen (runOps (NewMap maxEntries) ops).mp ≤ maxEntries := by
  have hc := consistent_runOps ops (NewMap maxEntries) (consistent_NewMap maxEntries)
  have hm : (runOps (NewMap maxEntries : Map K V) ops).maxEntries = maxEntries :=
    runOps_maxEntries ops (NewMap maxEntries)
  exact ⟨hc.1, le_of_le_of_eq (tableLen_le_of_consistent _ hc) hm⟩

/-- C4 (overwrite semantics, amended): for every state reachable from
`NewMap(n)` by `Store` and `Delete` calls and every key `k` already present
in the table, `Store(k, v)` returns `nil` unless `totalEntries < maxEntries`
and the order tracker is full; whenever it returns `nil`, `Load(k)` returns
`(v, true)` afterwards and the number of keys in the table has not grown; and
when `totalEntries < maxEntries` held before such a call, the number of keys
in the table is unchanged.  Nothing is said about the `totalEntries`
counter. -/
theorem overwrite_semantics {K V : Type} [DecidableEq K] (maxEntries : Nat)
    (ops : List (Op K V)) (st : Map K V) (key : K) (value : V)
    (hreach : st = runOps (NewMap maxEntries) ops) (hpres : (Load st key).2 = true) :
    (¬ (st.totalEntries < maxEntries ∧ st.entriesChan.buf.length = maxEntries) →
      (Store st key value).2 = none) ∧
    ((Store st key value).2 = none →
      Load (Store st key value).1 key = (some value, true) ∧
      tableLen (Store st key value).1.mp ≤ tableLen st.mp ∧
      (st.totalEntries < maxEntries →
        tableLen (Store st key value).1.mp = tableLen st.mp)) := by
  have hc : Consistent st :=
    hreach ▸ consistent_runOps ops (NewMap maxEntries) (consistent_NewMap maxEntries)
  have hm : st.maxEntries = maxEntries := by
    rw [hreach]; exact runOps_maxEntries ops (NewMap maxEntries)
  have h := overwrite_of_consistent st key value hc ((Load_found_iff st key).mp hpres)
  rw [hm] at h
  exact ⟨h.1, fun hok => ⟨Load_Store_of_ok st key value hok, (h.2 hok).1,
    fun hlt => ((h.2 hok).2 hlt).1⟩⟩

/-- Witness of C4: `Store("a", 2)` after `NewMap(2); Store("a", 1)`. -/
theorem overwrite_semantics_witness :
    (Load (runOps (NewMap 2 : Map String Nat) [.store "a" 1]) "a").2 = true ∧
    ((¬ ((runOps (NewMap 2 : Map String Nat) [.store "a" 1]).totalEntries < 2 ∧
        (runOps (NewMap 2 : Map String Nat) [.store "a" 1]).entriesChan.buf.length = 2) →
      (Store (runOps (NewMap 2 : Map String Nat) [.store "a" 1]) "a" 2).2 = none) ∧
    ((Store (runOps (NewMap 2 : Map String Nat) [.store "a" 1]) "a" 2).2 = none →
      Load (Store (runOps (NewMap 2 : Map String Nat) [.store "a" 1]) "a" 2).1 "a"
        = (some 2, true) ∧
      tableLen (Store (runOps (NewMap 2 : Map String Nat) [.store "a" 1]) "a" 2).1.mp
        ≤ tableLen (runOps (NewMap 2 : Map String Nat) [.store "a" 1]).mp ∧
      ((runOps (NewMap 2 : Map String Nat) [.store "a" 1]).totalEntries < 2 →
        tableLen (Store (runOps (NewMap 2 : Map String Nat) [.store "a" 1]) "a" 2).1.mp
          = tableLen (runOps (NewMap 2 : Map String Nat) [.store "a" 1]).mp))) :=
  ⟨by decide, overwrite_semantics 2 [.store "a" 1] _ "a" 2 rfl (by decide)⟩

/-- Counterexample to C4 as stated: after
`NewMap(2); Store("a", 1); Store("b", 2); Delete("a")` the key `"b"` is
present, the counter is 1 and the order tracker still holds two keys, so
`Store("b", 3)` skips the eviction, finds the tracker full and returns an
error instead of `nil`. -/
theorem overwrite_can_fail :
    ¬ (∀ (n : Nat) (ops : List (Op String Nat)) (key : String) (value : Nat),
        (Load (runOps (NewMap n) ops) key).2 = true →
        (Store (runOps (NewMap n) ops) key value).2 = none ∧
        Load (Store (runOps (NewMap n) ops) key value).1 key = (some value, true) ∧
        (Store (runOps (NewMap n) ops) key value).1.totalEntries
          = (runOps (NewMap n) ops).totalEntries ∧
        tableLen (Store (runOps (NewMap n) ops) key value).1.mp
          = tableLen (runOps (NewMap n) ops).mp) := by
  intro h
  have h1 := (h 2 [.store "a" 1, .store "b" 2, .delete "a"] "b" 3 (by decide)).1
  revert h1
  decide

/-- C5 (failing input): after
`NewMap(2); Store("a", 1); Store("b", 2); Delete("a")` the call
`Store("b", 3)` returns the error "error adding entry", and its rollback
removes the key `"b"`, which was present with value 2 before the call: the
table after the failed call differs from the table before it. -/
theorem rollback_removes_overwritten_key :
    (Store (runOps (NewMap 2 : Map String Nat) [.store "a" 1, .store "b" 2, .delete "a"])
      "b" 3).2 = some (.addingEntry "b") ∧
    Load (runOps (NewMap 2 : Map String Nat) [.store "a" 1, .store "b" 2, .delete "a"]) "b"
      = (some 2, true) ∧
    Load (Store (runOps (NewMap 2 : Map String Nat) [.store "a" 1, .store "b" 2, .delete "a"])
      "b" 3).1 "b" = (none, false) := by
  decide

/-- C6 (rollback path, amended): for every `maxEntries >= 1` and every
sequence of fewer than `2^64` calls of `Store` alone (no `Delete`) applied to
`NewMap(maxEntries)`, every `Store` returns `nil`; in particular none finds
the order tracker full at its enqueue step. -/
theorem store_only_never_fails {K V : Type} [DecidableEq K] (maxEntries : Nat)
    (hN : 1 ≤ maxEntries) (kvs : List (K × V)) (hlen : kvs.length < uintSize) :
    (storeAll (NewMap maxEntries) kvs).2 = List.replicate kvs.length none :=
  storeOnly_storeAll maxEntries hN kvs 0 (NewMap maxEntries) (by omega)
    (storeOnly_NewMap maxEntries)

/-- Witness of C6: four calls of `Store` on `NewMap(2)`, one of them an
overwrite. -/
theorem store_only_never_fails_witness :
    (storeAll (NewMap 2 : Map String Nat) [("a", 1), ("b", 2), ("b", 3), ("c", 4)]).2
      = List.replicate [("a", 1), ("b", 2), ("b", 3), ("c", 4)].length none :=
  store_only_never_fails 2 (by decide) [("a", 1), ("b", 2), ("b", 3), ("c", 4)] (by decide)

/-- Counterexample to C6 as stated: after `NewMap(1); Store("a", 1);
Delete("a")` the order tracker is still full while the counter is 0, so
`Store("b", 2)` skips the eviction, finds the tracker full at its enqueue step
and returns the error "error adding entry". -/
theorem rollback_reachable :
    ¬ (∀ (maxEntries : Nat), 1 ≤ maxEntries →
        ∀ (ops : List (Op String Nat)) (key : String) (value : Nat),
          (Store (runOps (NewMap maxEntries) ops) key value).2 ≠ some (.addingEntry key)) := by
  intro h
  exact h 1 (by decide) [.store "a" 1, .delete "a"] "b" 2 (by decide)

/-- C7 (delete idempotence): for every map state and key `k`, (1) if `k` is
absent from the table then `Delete(k)` leaves the whole state unchanged, and
(2) the state after `Delete(k); Delete(k)` equals the state after a single
`Delete(k)`. -/
theorem delete_idempotent {K V : Type} [DecidableEq K] (st : Map K V) (key : K) :
    ((Load st key).2 = false → Delete st key = st) ∧
    Delete (Delete st key) key = Delete st key := by
  constructor
  · intro h
    have habs : tableGet st.mp key = none := by
      by_contra hne
      rw [(Load_found_iff st key).mpr hne] at h
      exact Bool.noConfusion h
    exact deleteNoLock_absent st key habs
  · unfold Delete
    apply deleteNoLock_absent
    rw [deleteNoLock_mp]
    exact tableGet_tableDelete_self st.mp key

/-- Witness of C7: deleting the absent key `"b"`, and deleting `"a"` twice,
in the map obtained by `NewMap(2); Store("a", 1)`. -/
theorem delete_idempotent_witness :
    (Load (Store (NewMap 2 : Map String Nat) "a" 1).1 "b").2 = false ∧
    Delete (Store (NewMap 2 : Map String Nat) "a" 1).1 "b"
      = (Store (NewMap 2 : Map String Nat) "a" 1).1 ∧
    Delete (Delete (Store (NewMap 2 : Map String Nat) "a" 1).1 "a") "a"
      = Delete (Store (NewMap 2 : Map String Nat) "a" 1).1 "a" :=
  ⟨by decide,
   (delete_idempotent (Store (NewMap 2 : Map String Nat) "a" 1).1 "b").1 (by decide),
   (delete_idempotent (Store (NewMap 2 : Map String Nat) "a" 1).1 "a").2⟩

/-- C8 (delete postcondition): for every map state in which key `k` is present
in the table, with `totalEntries >= 1` (a `uint`), after `Delete(k)` the call
`Load(k)` returns `(nil, false)`, `Load(k')` returns the same result as before
for every `k' != k`, and `totalEntries` is exactly one less than before; in
particular `NewMap(3); Store("a", 1); Delete("a")` yields
`Load("a") = (nil, false)` and `totalEntries = 0`. -/
theorem delete_postcondition {K V : Type} [DecidableEq K] :
    (∀ (st : Map K V) (key : K), (Load st key).2 = true → 1 ≤ st.totalEntries →
      st.totalEntries < uintSize →
      Load (Delete st key) key = (none, false) ∧
      (∀ other, other ≠ key → Load (Delete st key) other = Load st other) ∧
      (Delete st key).totalEntries + 1 = st.totalEntries) ∧
    (Load (Delete (Store (NewMap 3 : Map String Nat) "a" 1).1 "a") "a" = (none, false) ∧
     (Delete (Store (NewMap 3 : Map String Nat) "a" 1).1 "a").totalEntries = 0) := by
  refine ⟨?_, by decide, by decide⟩
  intro st key hpres hpos huint
  refine ⟨?_, ?_, ?_⟩
  · have h : tableGet (Delete st key).mp key = none := by
      unfold Delete
      rw [deleteNoLock_mp]
      exact tableGet_tableDelete_self st.mp key
    simp [Load, h]
  · intro other hne
    apply Load_eq_of_tableGet_eq
    unfold Delete
    rw [deleteNoLock_mp]
    exact tableGet_tableDelete_ne st.mp key other hne
  · unfold Delete
    rw [deleteNoLock_present st key ((Load_found_iff st key).mp hpres)]
    simp only [uintDec_of_pos st.totalEntries hpos huint]
    omega

/-- Witness of C8: deleting `"a"` from the map obtained by
`NewMap(3); Store("a", 1); Store("b", 2)`. -/
theorem delete_postcondition_witness :
    (Load (runOps (NewMap 3 : Map String Nat) [.store "a" 1, .store "b" 2]) "a").2 = true ∧
    1 ≤ (runOps (NewMap 3 : Map String Nat) [.store "a" 1, .store "b" 2]).totalEntries ∧
    (runOps (NewMap 3 : Map String Nat) [.store "a" 1, .store "b" 2]).totalEntries < uintSize ∧
    Load (Delete (runOps (NewMap 3 : Map String Nat) [.store "a" 1, .store "b" 2]) "a") "a"
      = (none, false) ∧
    (∀ other, other ≠ "a" →
      Load (Delete (runOps (NewMap 3 : Map String Nat) [.store "a" 1, .store "b" 2]) "a") other
        = Load (runOps (NewMap 3 : Map String Nat) [.store "a" 1, .store "b" 2]) other) ∧
    (Delete (runOps (NewMap 3 : Map String Nat) [.store "a" 1, .store "b" 2]) "a").totalEntries
      + 1 = (runOps (NewMap 3 : Map String Nat) [.store "a" 1, .store "b" 2]).totalEntries :=
  ⟨by decide, by decide, by decide,
   delete_postcondition.1 (runOps (NewMap 3 : Map String Nat) [.store "a" 1, .store "b" 2]) "a"
     (by decide) (by decide) (by decide)⟩

/-- C9 (delete never touches the order tracker): for every map state and key
`k`, present or absent, the queue of keys in `entriesChan` (and the channel as
a whole) and `maxEntries` after `Delete(k)` are identical to those before the
call. -/
theorem delete_keeps_tracker {K V : Type} [DecidableEq K] (st : Map K V) (key : K) :
    (Delete st key).entriesChan.buf = st.entriesChan.buf ∧
    (Delete st key).entriesChan = st.entriesChan ∧
    (Delete st key).maxEntries = st.maxEntries := by
  unfold Delete
  rw [deleteNoLock_entriesChan, deleteNoLock_maxEntries]
  exact ⟨rfl, rfl, rfl⟩

/-- C10 (no stored entry lacks an order record): for every `maxEntries` and
every finite sequence of `Store` and `Delete` calls applied to
`NewMap(maxEntries)`, whether the calls succeed or return an error, every key
present in the table occurs in the queue of the order tracker. -/
theorem stored_key_is_queued {K V : Type} [DecidableEq K] (maxEntries : Nat)
    (ops : List (Op K V)) (key : K)
    (hpres : (Load (runOps (NewMap maxEntries) ops) key).2 = true) :
    key ∈ (runOps (NewMap maxEntries) ops).entriesChan.buf := by
  have hc := consistent_runOps ops (NewMap maxEntries) (consistent_NewMap maxEntries)
  exact hc.2.1 key ((tableGet_ne_none_iff _ key).mp ((Load_found_iff _ key).mp hpres))

/-- Witness of C10: the key `"c"` after
`NewMap(2); Store("a", 1); Delete("a"); Store("c", 3); Store("b", 2)`, where
the last `Store` returns an error. -/
theorem stored_key_is_queued_witness :
    (Load (runOps (NewMap 2 : Map String Nat)
      [.store "a" 1, .delete "a", .store "c" 3, .store "b" 2]) "c").2 = true ∧
    "c" ∈ (runOps (NewMap 2 : Map String Nat)
      [.store "a" 1, .delete "a", .store "c" 3, .store "b" 2]).entriesChan.buf :=
  ⟨by decide, stored_key_is_queued 2 [.store "a" 1, .delete "a", .store "c" 3, .store "b" 2]
    "c" (by decide)⟩

/-- C11 (size invariant, amended): for every `maxEntries` and every finite
sequence of `Store` and `Delete` calls applied to `NewMap(maxEntries)`, after
each call the number of keys in the table is at most the number of keys held
in the order tracker, which is at most `maxEntries`. -/
theorem size_invariant {K V : Type} [DecidableEq K] (maxEntries : Nat)
    (ops : List (Op K V)) :
    tableLen (runOps (NewMap maxEntries) ops).mp
      ≤ (runOps (NewMap maxEntries) ops).entriesChan.buf.length ∧
    (runOps (NewMap maxEntries) ops).entriesChan.buf.length ≤ maxEntries := by
  have hc := consistent_runOps ops (NewMap maxEntries) (consistent_NewMap maxEntries)
  have hm : (runOps (NewMap maxEntries : Map K V) ops).maxEntries = maxEntries :=
    runOps_maxEntries ops (NewMap maxEntries)
  refine ⟨tableLen_le_queue _ hc, ?_⟩
  have h3 := hc.2.2.1
  have h4 := hc.2.2.2
  omega

/-- Counterexample to C11 as stated: after `NewMap(2); Store("a", 1);
Delete("a")` the table is empty while the order tracker still holds the key
`"a"`, so the two sizes differ. -/
theorem size_invariant_fails_after_delete :
    ¬ (∀ (maxEntries : Nat) (ops : List (Op String Nat)),
        tableLen (runOps (NewMap maxEntries) ops).mp
          = (runOps (NewMap maxEntries) ops).entriesChan.buf.length ∧
        (runOps (NewMap maxEntries) ops).entriesChan.buf.length ≤ maxEntries) := by
  intro h
  have h1 := (h 2 [.store "a" 1, .delete "a"]).1
  revert h1
  decide

/-- C12 (failing input): after `NewMap(2); Store("a", 1); Store("a", 2)` the
table holds the single key `"a"` while the `totalEntries` counter is 2. -/
theorem overwrite_inflates_counter :
    tableLen (runOps (NewMap 2 : Map String Nat) [.store "a" 1, .store "a" 2]).mp = 1 ∧
    (runOps (NewMap 2 : Map String Nat) [.store "a" 1, .store "a" 2]).totalEntries = 2 := by
  decide

/-- C13 (eviction always finds a victim): for every `maxEntries >= 1` and
every state reachable from `NewMap(maxEntries)` by `Store` and `Delete` calls,
if `totalEntries >= maxEntries` then the order tracker is non-empty, and
`Store` never returns the error "no available first entry key". -/
theorem eviction_finds_victim {K V : Type} [DecidableEq K] (maxEntries : Nat)
    (hn : 1 ≤ maxEntries) (ops : List (Op K V)) :
    ((runOps (NewMap maxEntries) ops).totalEntries ≥ maxEntries →
      (runOps (NewMap maxEntries) ops).entriesChan.buf ≠ []) ∧
    (∀ (key : K) (value : V),
      (Store (runOps (NewMap maxEntries) ops) key value).2 ≠ some .noFirstKey) := by
  have hm : (runOps (NewMap maxEntries : Map K V) ops).maxEntries = maxEntries :=
    runOps_maxEntries ops (NewMap maxEntries)
  have hfull : (runOps (NewMap maxEntries : Map K V) ops).totalEntries ≥ maxEntries →
      (runOps (NewMap maxEntries : Map K V) ops).entriesChan.buf ≠ [] := by
    intro ht hb
    rw [empty_queue_runOps maxEntries hn ops hb] at ht
    have h0 : (NewMap maxEntries : Map K V).totalEntries = 0 := rfl
    omega
  refine ⟨hfull, ?_⟩
  intro key value
  by_cases ht : (runOps (NewMap maxEntries : Map K V) ops).totalEntries
      < (runOps (NewMap maxEntries : Map K V) ops).maxEntries
  · rw [Store_below _ key value ht]
    exact storeEntry_ne_noFirstKey _ key value
  · have ht2 := Nat.le_of_not_lt ht
    cases hq : (runOps (NewMap maxEntries : Map K V) ops).entriesChan.buf with
    | nil => exact absurd hq (hfull (le_of_eq_of_le hm.symm ht2))
    | cons first rest =>
      rw [Store_evict _ key value first rest ht2 hq]
      exact storeEntry_ne_noFirstKey _ key value

/-- Witness of C13: capacity 1 after `Store("a", 1)`, where the counter has
reached `maxEntries`. -/
theorem eviction_finds_victim_witness :
    1 ≤ 1 ∧
    (runOps (NewMap 1 : Map String Nat) [.store "a" 1]).totalEntries ≥ 1 ∧
    (runOps (NewMap 1 : Map String Nat) [.store "a" 1]).entriesChan.buf ≠ [] ∧
    (∀ (key : String) (value : Nat),
      (Store (runOps (NewMap 1 : Map String Nat) [.store "a" 1]) key value).2
        ≠ some .noFirstKey) :=
  ⟨by decide, by decide,
   (eviction_finds_victim 1 (by decide) [.store "a" 1]).1 (by decide),
   (eviction_finds_victim 1 (by decide) [.store "a" 1]).2⟩

/-- C14 (zero capacity): for every finite sequence of `Store` and `Delete`
calls applied to `NewMap(0)`, every `Store` returns a non-nil error (the error
"no available first entry key"), and after each call the table is empty
(`Load` returns `(nil, false)` for every key), the order tracker is empty and
`totalEntries` is 0. -/
theorem zero_capacity {K V : Type} [DecidableEq K] (ops : List (Op K V)) :
    (∀ (key : K) (value : V),
      (Store (runOps (NewMap 0) ops) key value).2 = some .noFirstKey ∧
      (Store (runOps (NewMap 0) ops) key value).2 ≠ none) ∧
    (runOps (NewMap 0) ops).mp = [] ∧
    (∀ key : K, Load (runOps (NewMap 0) ops) key = (none, false)) ∧
    (runOps (NewMap 0) ops).entriesChan.buf = [] ∧
    (runOps (NewMap 0) ops).totalEntries = 0 := by
  have hfix : runOps (NewMap 0 : Map K V) ops = NewMap 0 := by
    apply runOps_induction (fun st => st = (NewMap 0 : Map K V)) _ ops (NewMap 0) rfl
    intro st op hst
    subst hst
    cases op with
    | store key value =>
      show (Store (NewMap 0 : Map K V) key value).1 = NewMap 0
      rw [Store_empty (NewMap 0) key value (Nat.zero_le _) rfl]
    | delete key => rfl
  rw [hfix]
  refine ⟨?_, rfl, fun key => rfl, rfl, rfl⟩
  intro key value
  rw [Store_empty (NewMap 0) key value (Nat.zero_le _) rfl]
  exact ⟨rfl, by simp⟩

/-- C16 (exact failure condition of `Store`): for every map state whose
channel has capacity `maxEntries` and holds `L <= maxEntries` keys, and every
key `k` and value `v`, `Store(k, v)` returns a non-nil error if and only if
(`totalEntries >= maxEntries` and `L = 0`) or (`totalEntries < maxEntries` and
`L = maxEntries`); in particular, whenever the eviction step dequeues a key
(`totalEntries >= maxEntries` and the queue is non-empty), the enqueue
succeeds and `Store` returns `nil`. -/
theorem store_failure_condition {K V : Type} [DecidableEq K] (st : Map K V) (key : K)
    (value : V) (hcap : st.entriesChan.cap = st.maxEntries)
    (hL : st.entriesChan.buf.length ≤ st.maxEntries) :
    ((Store st key value).2 ≠ none ↔
      (st.totalEntries ≥ st.maxEntries ∧ st.entriesChan.buf.length = 0) ∨
      (st.totalEntries < st.maxEntries ∧ st.entriesChan.buf.length = st.maxEntries)) ∧
    (st.totalEntries ≥ st.maxEntries → st.entriesChan.buf ≠ [] →
      (Store st key value).2 = none) := by
  by_cases ht : st.totalEntries < st.maxEntries
  · rw [Store_below st key value ht, storeEntry_error_iff, hcap]
    refine ⟨?_, fun h => absurd ht (Nat.not_lt.mpr h)⟩
    constructor
    · intro h
      exact Or.inr ⟨ht, by omega⟩
    · intro h
      cases h with
      | inl h => omega
      | inr h => omega
  · have ht2 : st.totalEntries ≥ st.maxEntries := Nat.le_of_not_lt ht
    cases hq : st.entriesChan.buf with
    | nil =>
      rw [Store_empty st key value ht2 hq]
      refine ⟨?_, fun _ h => absurd rfl h⟩
      simp [ht2]
    | cons first rest =>
      rw [Store_evict_ok st key value first rest ht2 hq (by rw [hcap]; exact hL)]
      refine ⟨?_, fun _ _ => rfl⟩
      simp only [ne_eq, not_true_eq_false, List.length_cons, false_iff, not_or, not_and]
      exact ⟨fun _ => by omega, fun h => absurd h ht⟩

/-- Witness of C16: the state after `NewMap(1); Store("a", 1); Delete("a")`,
whose queue is full while the counter is below `maxEntries`, so that
`Store("b", 2)` fails. -/
theorem store_failure_condition_witness :
    (runOps (NewMap 1 : Map String Nat) [.store "a" 1, .delete "a"]).entriesChan.cap
      = (runOps (NewMap 1 : Map String Nat) [.store "a" 1, .delete "a"]).maxEntries ∧
    (Store (runOps (NewMap 1 : Map String Nat) [.store "a" 1, .delete "a"]) "b" 2).2 ≠ none :=
  ⟨by decide,
   (store_failure_condition (runOps (NewMap 1 : Map String Nat) [.store "a" 1, .delete "a"])
     "b" 2 (by decide) (by decide)).1.mpr (Or.inr (by decide))⟩

/-- C17 (`Store` removes at most the front key of the tracker): for every map
state, key `k` and value `v`, if `Store(k, v)` returns `nil` then for every key
`k' != k` either `Load(k')` after the call equals `Load(k')` before the call,
or `totalEntries >= maxEntries` held before the call, `k'` was the key at the
front of the order tracker before the call, and `k'` is absent afterwards. -/
theorem store_frame {K V : Type} [DecidableEq K] (st : Map K V) (key : K) (value : V)
    (hok : (Store st key value).2 = none) (other : K) (hne : other ≠ key) :
    Load (Store st key value).1 other = Load st other ∨
    (st.totalEntries ≥ st.maxEntries ∧ st.entriesChan.buf.head? = some other ∧
      Load (Store st key value).1 other = (none, false)) := by
  by_cases ht : st.totalEntries < st.maxEntries
  · left
    rw [Store_below st key value ht] at hok ⊢
    by_cases hl : st.entriesChan.buf.length < st.entriesChan.cap
    · rw [storeEntry_sent st key value hl]
      apply Load_eq_of_tableGet_eq
      exact tableGet_tableSet_ne st.mp key other value hne
    · rw [storeEntry_full st key value hl] at hok
      simp at hok
  · have ht2 : st.totalEntries ≥ st.maxEntries := Nat.le_of_not_lt ht
    cases hq : st.entriesChan.buf with
    | nil =>
      rw [Store_empty st key value ht2 hq] at hok
      simp at hok
    | cons first rest =>
      rw [Store_evict st key value first rest ht2 hq] at hok ⊢
      by_cases hl : (deleteNoLock
          { st with entriesChan := { st.entriesChan with buf := rest } } first).entriesChan.buf.length
          < (deleteNoLock
          { st with entriesChan := { st.entriesChan with buf := rest } } first).entriesChan.cap
      · rw [storeEntry_sent _ key value hl]
        have hget : tableGet (tableSet (tableDelete st.mp first) key value) other
            = tableGet (tableDelete st.mp first) other :=
          tableGet_tableSet_ne _ key other value hne
        by_cases hf : other = first
        · right
          refine ⟨ht2, by simp [hf], ?_⟩
          subst hf
          simp only [Load, deleteNoLock_mp, hget, tableGet_tableDelete_self]
        · left
          apply Load_eq_of_tableGet_eq
          simp only [deleteNoLock_mp, hget]
          exact tableGet_tableDelete_ne st.mp first other hf
      · rw [storeEntry_full _ key value hl] at hok
        simp at hok

/-- Witness of C17: `Store("c", 3)` after
`NewMap(2); Store("a", 1); Store("b", 2)`, observed at the front key `"a"`,
which is evicted. -/
theorem store_frame_witness :
    (Store (runOps (NewMap 2 : Map String Nat) [.store "a" 1, .store "b" 2]) "c" 3).2 = none ∧
    (Load (Store (runOps (NewMap 2 : Map String Nat) [.store "a" 1, .store "b" 2]) "c" 3).1 "a"
        = Load (runOps (NewMap 2 : Map String Nat) [.store "a" 1, .store "b" 2]) "a" ∨
      ((runOps (NewMap 2 : Map String Nat) [.store "a" 1, .store "b" 2]).totalEntries
          ≥ (runOps (NewMap 2 : Map String Nat) [.store "a" 1, .store "b" 2]).maxEntries ∧
        (runOps (NewMap 2 : Map String Nat) [.store "a" 1, .store "b" 2]).entriesChan.buf.head?
          = some "a" ∧
        Load (Store (runOps (NewMap 2 : Map String Nat) [.store "a" 1, .store "b" 2]) "c" 3).1
          "a" = (none, false))) :=
  ⟨by decide,
   store_frame (runOps (NewMap 2 : Map String Nat) [.store "a" 1, .store "b" 2]) "c" 3
     (by decide) "a" (by decide)⟩

/-- C18 (permanent-failure state, amended): for every state reached from
`NewMap(maxEntries)` by fewer than `2^64` calls in which the order tracker
holds exactly `maxEntries` keys and `totalEntries < maxEntries`, after any
further sequence of `Store` and `Delete` calls (the empty one included) the
tracker is unchanged and still full, `totalEntries` is still below
`maxEntries`, and every `Store(k, v)` returns the error "error adding entry";
and such a state is reachable: `NewMap(1); Store("a", 1); Delete("a")`. -/
theorem permanent_failure {K V : Type} [DecidableEq K] :
    (∀ (maxEntries : Nat) (ops more : List (Op K V)), ops.length < uintSize →
      (runOps (NewMap maxEntries) ops).entriesChan.buf.length = maxEntries →
      (runOps (NewMap maxEntries) ops).totalEntries < maxEntries →
      (runOps (runOps (NewMap maxEntries) ops) more).entriesChan
        = (runOps (NewMap maxEntries) ops).entriesChan ∧
      (runOps (runOps (NewMap maxEntries) ops) more).entriesChan.buf.length = maxEntries ∧
      (runOps (runOps (NewMap maxEntries) ops) more).totalEntries < maxEntries ∧
      (∀ (key : K) (value : V),
        (Store (runOps (runOps (NewMap maxEntries) ops) more) key value).2
          = some (.addingEntry key))) ∧
    ((runOps (NewMap 1 : Map String Nat) [.store "a" 1, .delete "a"]).entriesChan.buf.length = 1 ∧
     (runOps (NewMap 1 : Map String Nat) [.store "a" 1, .delete "a"]).totalEntries < 1) := by
  refine ⟨?_, by decide, by decide⟩
  intro maxEntries ops more hlen hfull hlt
  have hc := consistent_runOps ops (NewMap maxEntries : Map K V) (consistent_NewMap maxEntries)
  have hm : (runOps (NewMap maxEntries : Map K V) ops).maxEntries = maxEntries :=
    runOps_maxEntries ops (NewMap maxEntries)
  have hcnt := counted_runOps ops 0 (NewMap maxEntries : Map K V) (by omega)
    (counted_NewMap maxEntries)
  have hstuck : Stuck (runOps (NewMap maxEntries : Map K V) ops) := by
    refine ⟨hc.2.2.2, by rw [hm]; exact hfull, by rw [hm]; exact hlt, hcnt.1, ?_⟩
    have := hcnt.2
    omega
  obtain ⟨hs, hchan, hmax⟩ := stuck_runOps more _ hstuck
  refine ⟨hchan, ?_, ?_, fun key value => (stuck_Store _ key value hs).1⟩
  · rw [hchan]; exact hfull
  · have := hs.2.2.1
    rw [hmax, hm] at this
    exact this

/-- Witness of C18: the state after `NewMap(1); Store("a", 1); Delete("a")`,
followed by `Store("b", 2); Delete("b")`. -/
theorem permanent_failure_witness :
    (runOps (runOps (NewMap 1 : Map String Nat) [.store "a" 1, .delete "a"])
        [.store "b" 2, .delete "b"]).entriesChan
      = (runOps (NewMap 1 : Map String Nat) [.store "a" 1, .delete "a"]).entriesChan ∧
    (runOps (runOps (NewMap 1 : Map String Nat) [.store "a" 1, .delete "a"])
        [.store "b" 2, .delete "b"]).entriesChan.buf.length = 1 ∧
    (runOps (runOps (NewMap 1 : Map String Nat) [.store "a" 1, .delete "a"])
        [.store "b" 2, .delete "b"]).totalEntries < 1 ∧
    (∀ (key : String) (value : Nat),
      (Store (runOps (runOps (NewMap 1 : Map String Nat) [.store "a" 1, .delete "a"])
        [.store "b" 2, .delete "b"]) key value).2 = some (.addingEntry key)) :=
  permanent_failure.1 1 [.store "a" 1, .delete "a"] [.store "b" 2, .delete "b"]
    (by decide) (by decide) (by decide)

/-- Counterexample to C18 as stated: on a map of capacity 2, the `Store`
calls of `overflowOps` wrap the counter around to 0 while the table holds the
keys `"c"` and `"b"` and the tracker is full; the state satisfies the
condition of the claim, yet `Delete("c")` takes the counter from 0 to
`2^64 - 1`, which is not below `maxEntries`. -/
theorem permanent_failure_escapes :
    ¬ (∀ (maxEntries : Nat) (ops : List (Op String Nat)),
        (runOps (NewMap maxEntries) ops).entriesChan.buf.length = maxEntries →
        (runOps (NewMap maxEntries) ops).totalEntries < maxEntries →
        (∀ (key : String) (value : Nat),
          (Store (runOps (NewMap maxEntries) ops) key value).2 ≠ none) ∧
        (∀ op : Op String Nat,
          (applyOp (runOps (NewMap maxEntries) ops) op).entriesChan
            = (runOps (NewMap maxEntries) ops).entriesChan ∧
          (applyOp (runOps (NewMap maxEntries) ops) op).totalEntries < maxEntries)) := by
  intro h
  have h1 := h 2 overflowOps
  rw [overflow_run] at h1
  have h2 := ((h1 (by decide) (by decide)).2 (.delete "c")).2
  revert h2
  decide

/-- C19 (the counter never undercounts or underflows, amended): for every
`maxEntries` and every sequence of fewer than `2^64` calls of `Store` and
`Delete` applied to `NewMap(maxEntries)`, after each call the number of keys
in the table is at most `totalEntries`; hence whenever a key is present,
`totalEntries >= 1` and the decrement in `deleteNoLock` (reached from `Delete`
or from the eviction in `Store`) leaves the counter exactly one lower, without
wrapping below zero; and as long as a further call stays within the bound,
the increment in `Store` does not wrap either, so the decrement of the
rollback starts from `totalEntries + 1`. -/
theorem counter_covers_table {K V : Type} [DecidableEq K] (maxEntries : Nat)
    (ops : List (Op K V)) (hlen : ops.length < uintSize) :
    tableLen (runOps (NewMap maxEntries) ops).mp
      ≤ (runOps (NewMap maxEntries) ops).totalEntries ∧
    (∀ key : K, (Load (runOps (NewMap maxEntries) ops) key).2 = true →
      1 ≤ (runOps (NewMap maxEntries) ops).totalEntries ∧
      (deleteNoLock (runOps (NewMap maxEntries) ops) key).totalEntries + 1
        = (runOps (NewMap maxEntries) ops).totalEntries) ∧
    (ops.length + 1 < uintSize →
      uintInc (runOps (NewMap maxEntries) ops).totalEntries
        = (runOps (NewMap maxEntries) ops).totalEntries + 1) := by
  have hcnt := counted_runOps ops 0 (NewMap maxEntries : Map K V) (by omega)
    (counted_NewMap maxEntries)
  have hU : (runOps (NewMap maxEntries : Map K V) ops).totalEntries < uintSize := by
    have := hcnt.2
    omega
  refine ⟨hcnt.1, ?_, ?_⟩
  · intro key hpres
    have hp := (Load_found_iff _ key).mp hpres
    have hlt := tableLen_tableDelete_lt _ key hp
    have hpos : 1 ≤ (runOps (NewMap maxEntries : Map K V) ops).totalEntries := by
      have := hcnt.1
      omega
    refine ⟨hpos, ?_⟩
    rw [deleteNoLock_present _ key hp]
    simp only [uintDec_of_pos _ hpos hU]
    omega
  · intro hnext
    apply uintInc_of_lt
    have := hcnt.2
    omega

/-- Witness of C19: the run `NewMap(2); Store("a", 1); Store("a", 2);
Store("b", 3)`. -/
theorem counter_covers_table_witness :
    tableLen (runOps (NewMap 2 : Map String Nat)
        [.store "a" 1, .store "a" 2, .store "b" 3]).mp
      ≤ (runOps (NewMap 2 : Map String Nat)
        [.store "a" 1, .store "a" 2, .store "b" 3]).totalEntries ∧
    (∀ key : String, (Load (runOps (NewMap 2 : Map String Nat)
        [.store "a" 1, .store "a" 2, .store "b" 3]) key).2 = true →
      1 ≤ (runOps (NewMap 2 : Map String Nat)
        [.store "a" 1, .store "a" 2, .store "b" 3]).totalEntries ∧
      (deleteNoLock (runOps (NewMap 2 : Map String Nat)
        [.store "a" 1, .store "a" 2, .store "b" 3]) key).totalEntries + 1
        = (runOps (NewMap 2 : Map String Nat)
          [.store "a" 1, .store "a" 2, .store "b" 3]).totalEntries) ∧
    ([Op.store "a" 1, Op.store "a" 2, Op.store "b" 3].length + 1 < uintSize →
      uintInc (runOps (NewMap 2 : Map String Nat)
        [.store "a" 1, .store "a" 2, .store "b" 3]).totalEntries
        = (runOps (NewMap 2 : Map String Nat)
          [.store "a" 1, .store "a" 2, .store "b" 3]).totalEntries + 1) :=
  counter_covers_table 2 [.store "a" 1, .store "a" 2, .store "b" 3] (by decide)

/-- Counterexample to C19 as stated: on a map of capacity 2, the `Store`
calls of `overflowOps` wrap the counter around to 0 while the table holds two
keys, and the following `Delete("c")` decrements the counter at 0, which wraps
to `2^64 - 1`. -/
theorem counter_wraps :
    ¬ (∀ (maxEntries : Nat) (ops : List (Op String Nat)),
        tableLen (runOps (NewMap maxEntries) ops).mp
          ≤ (runOps (NewMap maxEntries) ops).totalEntries) ∧
    tableLen (runOps (NewMap 2) overflowOps).mp = 2 ∧
    (runOps (NewMap 2) overflowOps).totalEntries = 0 ∧
    (Delete (runOps (NewMap 2) overflowOps) "c").totalEntries = uintSize - 1 := by
  rw [overflow_run]
  refine ⟨?_, by decide, by decide, by decide⟩
  intro h
  have h1 := h 2 overflowOps
  rw [overflow_run] at h1
  revert h1
  decide

end GoCircularMap
